import Mathlib

/-!
# Bounded shared counter (`counter.go`)

A shallow embedding of the `Counter` type of `counter.go` and of the worker pool
started by `Counter.Start`.

* Go's `int` is a mathematical integer reduced explicitly into the 64-bit
  two's-complement range by `wrapInt` wherever the source does arithmetic
  (`c.value++`, `i++`).
* A channel is its identity together with its closed flag; `close` on a closed
  channel is a run-time panic, modelled as an error result.
* The mutex makes every method body one atomic step; goroutines are modelled by
  an interleaving of such steps chosen by an explicit schedule.
* Console output (`fmt.Printf`) is not part of the state.
-/

namespace Chan4

/-! ## Machine integers -/

/-- Smallest value of Go's `int`. -/
def minInt : Int := -9223372036854775808

/-- Largest value of Go's `int`. -/
def maxInt : Int := 9223372036854775807

/-- Two's-complement reduction of a mathematical integer into the `int` range. -/
def wrapInt (x : Int) : Int :=
  (x + 9223372036854775808) % 18446744073709551616 - 9223372036854775808

/-- The integer is representable as a Go `int`. -/
def InRange (x : Int) : Prop := minInt ≤ x ∧ x ≤ maxInt

instance (x : Int) : Decidable (InRange x) := by
  unfold InRange; infer_instance

/-! ## Channels -/

/-- Run-time panics the program can raise. -/
inductive Panic where
  | closeOfClosedChannel
  | negativeWaitGroupCounter
  deriving DecidableEq, Repr

/-- A `chan bool` on which nothing is ever sent: its identity and whether it has
been closed. -/
structure Chan where
  id : Nat
  closed : Bool
  deriving DecidableEq, Repr

/-- The call `make(chan bool)`: an open channel with the given, so far unused, identity. -/
def makeChan (fresh : Nat) : Chan := { id := fresh, closed := false }

/-- The call `close(ch)`: it panics on a channel that is already closed. -/
def closeChan (ch : Chan) : Except Panic Chan :=
  if ch.closed then .error .closeOfClosedChannel else .ok { ch with closed := true }

/-! ## The counter -/

/-- The data fields of `Counter`; `mutex` is the atomicity of the methods below and
`wg` lives in the state of the worker pool. -/
structure Counter where
  value : Int
  target : Int
  numGoroutines : Int
  done : Chan
  deriving DecidableEq, Repr

/-- The constructor `NewCounter(target, numGoroutines)`. -/
def NewCounter (target : Int) (numGoroutines : Int) : Counter :=
  { value := 0, target := target, numGoroutines := numGoroutines, done := makeChan 0 }

/-- The method `Counter.Increment`; the `fmt.Printf` of the new value is left out. -/
def Increment (c : Counter) : Except Panic Counter :=
  if c.value < c.target then
    let c1 : Counter := { c with value := wrapInt (c.value + 1) }
    if c1.value ≥ c1.target then
      match closeChan c1.done with
      | .ok d => .ok { c1 with done := d }
      | .error e => .error e
    else .ok c1
  else .ok c

/-- The method `Counter.GetValue`. -/
def GetValue (c : Counter) : Int := c.value

/-- The method `Counter.GetTarget`. -/
def GetTarget (c : Counter) : Int := c.target

/-- The method `Counter.IsReached`. -/
def IsReached (c : Counter) : Bool := decide (c.value ≥ c.target)

/-- The method `Counter.Reset`: the channel made here gets the identity following the one it
replaces, so it differs from every channel the counter held before. -/
def Reset (c : Counter) : Counter :=
  { c with value := 0, done := makeChan (c.done.id + 1) }

/-! ## Sequences of method calls -/

/-- A call of one of the two mutating methods. -/
inductive Op where
  | increment
  | reset
  deriving DecidableEq, Repr

/-- One call. -/
def applyOp (c : Counter) : Op → Except Panic Counter
  | .increment => Increment c
  | .reset => .ok (Reset c)

/-- A finite sequence of calls, first call first; a panic aborts the rest. -/
def applyOps (c : Counter) : List Op → Except Panic Counter
  | [] => .ok c
  | op :: ops =>
    match applyOp c op with
    | .ok c1 => applyOps c1 ops
    | .error e => .error e

/-- Number of calls of the sequence that changed `value`. -/
def countChanges (c : Counter) : List Op → Nat
  | [] => 0
  | op :: ops =>
    match applyOp c op with
    | .ok c1 => (if c1.value = c.value then 0 else 1) + countChanges c1 ops
    | .error _ => 0

/-- Two counter states that differ at most in the identity of the done channel. -/
def SameUpToChan (a b : Counter) : Prop :=
  a.value = b.value ∧ a.target = b.target ∧ a.numGoroutines = b.numGoroutines ∧
    a.done.closed = b.done.closed

instance (a b : Counter) : Decidable (SameUpToChan a b) := by
  unfold SameUpToChan; infer_instance

/-! ## The loop of one worker, run alone -/

/-- The body of the goroutine of `Start` (the `for`/`select` loop) run with no other
goroutine in between, each iteration costing one unit of fuel: the final counter and the
number of `Increment` calls made, `none` when the fuel runs out first. -/
def workerLoop : Nat → Counter → Nat → Option (Except Panic (Counter × Nat))
  | 0, _, _ => none
  | fuel + 1, c, calls =>
    if c.done.closed then some (.ok (c, calls))
    else if IsReached c then some (.ok (c, calls))
    else
      match Increment c with
      | .ok c1 => workerLoop fuel c1 (calls + 1)
      | .error e => some (.error e)

/-- The worker loop with the fuel its variant `target - value` asks for. -/
def runWorker (c : Counter) : Option (Except Panic (Counter × Nat)) :=
  workerLoop ((c.target - c.value).toNat + 1) c 0

/-! ## The worker pool of `Start` -/

/-- Where a worker goroutine stands: before the `select` (line 73), before the call of
`IsReached` (line 79), before the call of `Increment` (line 85), or returned. -/
inductive WorkerPC where
  | atSelect
  | atIsReached
  | atIncrement
  | exited
  deriving DecidableEq, Repr

/-- A goroutine launched by `Start`. -/
structure Worker where
  goroutineID : Int
  pc : WorkerPC
  deriving DecidableEq, Repr

/-- Where `Start` itself stands: in its launch loop (line 66), in `c.wg.Wait()` (line 96),
or returned. -/
inductive MainPC where
  | launching
  | waiting
  | returned
  deriving DecidableEq, Repr

/-- The state of a call of `Start`: the counter, the counter of the wait group `c.wg` (an
unbounded integer, as `sync.WaitGroup` presents it), the loop variable `i`, and the
goroutines launched so far in launch order. -/
structure Pool where
  c : Counter
  wg : Int
  i : Int
  main : MainPC
  workers : List Worker
  deriving DecidableEq, Repr

/-- Who takes the next atomic step: `Start` itself or the k-th goroutine launched. -/
inductive Label where
  | main
  | worker (k : Nat)
  deriving DecidableEq, Repr

/-- Result of an attempted step. -/
inductive Outcome (σ : Type) where
  | next (s : σ)
  | panic (p : Panic)
  | disabled
  deriving DecidableEq, Repr

/-- Apply a function to the state of a successful outcome. -/
def Outcome.map {σ τ : Type} (f : σ → τ) : Outcome σ → Outcome τ
  | .next s => .next (f s)
  | .panic p => .panic p
  | .disabled => .disabled

/-- The call `c.wg.Done()`: the wait group panics when its counter would go negative. -/
def wgDone (wg : Int) : Except Panic Int :=
  if wg - 1 < 0 then .error .negativeWaitGroupCounter else .ok (wg - 1)

/-- The state at the call of `Start` on counter `c`. -/
def Start.init (c : Counter) : Pool :=
  { c := c, wg := 0, i := 0, main := .launching, workers := [] }

/-- A worker returns from its goroutine: the deferred `c.wg.Done()` runs. -/
def Start.workerExit (s : Pool) (k : Nat) (w : Worker) : Outcome Pool :=
  match wgDone s.wg with
  | .ok wg1 => .next { s with wg := wg1, workers := s.workers.set k { w with pc := .exited } }
  | .error e => .panic e

/-- One atomic step of `Start` or of one of its goroutines. -/
def Start.step (s : Pool) : Label → Outcome Pool
  | .main =>
    match s.main with
    | .launching =>
      if s.i < s.c.numGoroutines then
        .next { s with wg := s.wg + 1,
                       workers := s.workers ++ [{ goroutineID := s.i, pc := .atSelect }],
                       i := wrapInt (s.i + 1) }
      else .next { s with main := .waiting }
    | .waiting => if s.wg = 0 then .next { s with main := .returned } else .disabled
    | .returned => .disabled
  | .worker k =>
    match s.workers.get? k with
    | none => .disabled
    | some w =>
      match w.pc with
      | .atSelect =>
        if s.c.done.closed then Start.workerExit s k w
        else .next { s with workers := s.workers.set k { w with pc := .atIsReached } }
      | .atIsReached =>
        if IsReached s.c then Start.workerExit s k w
        else .next { s with workers := s.workers.set k { w with pc := .atIncrement } }
      | .atIncrement =>
        match Increment s.c with
        | .ok c1 => .next { s with c := c1, workers := s.workers.set k { w with pc := .atSelect } }
        | .error e => .panic e
      | .exited => .disabled

/-- Run a schedule, first step first; a panic or a disabled step ends the run. -/
def Start.run (s : Pool) : List Label → Outcome Pool
  | [] => .next s
  | l :: ls =>
    match Start.step s l with
    | .next s1 => Start.run s1 ls
    | .panic p => .panic p
    | .disabled => .disabled

/-- Number of steps of the schedule that changed `value`. -/
def Start.changes (s : Pool) : List Label → Nat
  | [] => 0
  | l :: ls =>
    match Start.step s l with
    | .next s1 => (if s1.c.value = s.c.value then 0 else 1) + Start.changes s1 ls
    | .panic _ => 0
    | .disabled => 0

/-- All `numGoroutines` workers have been launched and every one has returned. -/
def AllExited (s : Pool) : Prop :=
  (s.workers.length : Int) = max s.c.numGoroutines 0 ∧ ∀ w ∈ s.workers, w.pc = .exited

instance (s : Pool) : Decidable (AllExited s) := by
  unfold AllExited; infer_instance

/-- Forget the identity of the done channel. -/
def eraseChanId (c : Counter) : Counter := { c with done := { c.done with id := 0 } }

/-- Forget the identity of the done channel in a pool state. -/
def Pool.eraseChanId (s : Pool) : Pool := { s with c := Chan4.eraseChanId s.c }

/-- What `main` prints at the end, when `Start` returns under the given schedule:
`counter.GetValue()` and `counter.IsReached()`. -/
def main (sched : List Label) : Outcome (Int × Bool) :=
  match Start.run (Start.init (NewCounter 10 3)) sched with
  | .next s => if s.main = .returned then .next (GetValue s.c, IsReached s.c) else .disabled
  | .panic p => .panic p
  | .disabled => .disabled

/-! ## Invariants -/

/-- The invariant of a counter built by `NewCounter` with an `int` target: `value` lies
between 0 and the target (0 when the target is negative) and the done channel is closed
exactly when a positive target has been reached. -/
def Good (c : Counter) : Prop :=
  InRange c.target ∧ 0 ≤ c.value ∧ c.value ≤ max c.target 0 ∧
    (c.done.closed = true ↔ (0 < c.target ∧ c.target ≤ c.value))

/-- The guard against closing twice: a closed done channel means `value < target` fails. -/
def Fired (c : Counter) : Prop := c.done.closed = true → c.target ≤ c.value

/-- Number of goroutines of the list that have not returned yet. -/
def liveCount : List Worker → Int
  | [] => 0
  | w :: ws => (if w.pc = .exited then 0 else 1) + liveCount ws

/-- The invariant of a call of `Start` on the counter `c0`. -/
structure PoolInv (c0 : Counter) (s : Pool) : Prop where
  good : Good s.c
  target_eq : s.c.target = c0.target
  num_eq : s.c.numGoroutines = c0.numGoroutines
  chan_eq : s.c.done.id = c0.done.id
  num_inRange : InRange s.c.numGoroutines
  i_nonneg : 0 ≤ s.i
  i_le : s.i ≤ max s.c.numGoroutines 0
  length_eq : (s.workers.length : Int) = s.i
  ids : s.workers.map Worker.goroutineID = (List.range s.workers.length).map Int.ofNat
  launched : s.main ≠ .launching → s.c.numGoroutines ≤ s.i
  wg_eq : s.wg = liveCount s.workers
  returned : s.main = .returned → s.wg = 0
  exited : ∀ w ∈ s.workers, w.pc = .exited → s.c.target ≤ s.c.value
  incrementing : ∀ w ∈ s.workers, w.pc = .atIncrement → 0 < s.c.target
  untouched : s.workers = [] → s.c = c0

/-! ## Concrete runs -/

/-- A schedule of `NewCounter(10, 3).Start()`: goroutines 0 and 1 are launched and goroutine 0
already runs while `Start` is still launching; then the three goroutines take turns until
each has returned, and `Start` returns. -/
def schedule10 : List Label :=
  [.main, .worker 0, .main, .worker 0, .main, .main] ++
    (List.replicate 10 [Label.worker 2, .worker 0, .worker 1]).flatten ++
    [.worker 2, .worker 0, .main]

/-- The state `schedule10` ends in. -/
def final10 : Pool :=
  { c := { value := 10, target := 10, numGoroutines := 3, done := { id := 0, closed := true } },
    wg := 0, i := 3, main := .returned,
    workers := [⟨0, .exited⟩, ⟨1, .exited⟩, ⟨2, .exited⟩] }

/-- The state `schedule10` ends in when `Start` is called again after `Reset`. -/
def second10 : Pool :=
  { c := { value := 10, target := 10, numGoroutines := 3, done := { id := 1, closed := true } },
    wg := 0, i := 3, main := .returned,
    workers := [⟨0, .exited⟩, ⟨1, .exited⟩, ⟨2, .exited⟩] }

/-- A schedule of `NewCounter(1, 5).Start()` in which all five goroutines pass the `select`
and the `IsReached` test before any of them calls `Increment`, so that all five call it. -/
def schedule5 : List Label :=
  [.main, .main, .main, .main, .main, .main] ++
    (List.replicate 4 [Label.worker 2, .worker 0, .worker 1, .worker 3, .worker 4]).flatten ++
    [.main]

/-- The state `schedule5` ends in. -/
def final5 : Pool :=
  { c := { value := 1, target := 1, numGoroutines := 5, done := { id := 0, closed := true } },
    wg := 0, i := 5, main := .returned,
    workers := [⟨0, .exited⟩, ⟨1, .exited⟩, ⟨2, .exited⟩, ⟨3, .exited⟩, ⟨4, .exited⟩] }

/-- The goroutines `Start` has launched after `j` rounds of its loop, none of which has
taken a step yet. -/
def launchedWorkers (j : Nat) : List Worker :=
  (List.range j).map (fun (k : Nat) => ({ goroutineID := Int.ofNat k, pc := .atSelect } : Worker))

/-! ## A variant for `Start` -/

/-- Steps a worker can still take at most on its own account, given whether the target is
reached; a successful `Increment` of its own is paid for by the missing unit of `value`. -/
def workerCost (reached : Bool) : WorkerPC → Nat
  | .atSelect => if reached then 2 else 5
  | .atIsReached => if reached then 1 else 4
  | .atIncrement => 3
  | .exited => 0

/-- Sum of the costs of the workers. -/
def costSum (reached : Bool) : List Worker → Nat
  | [] => 0
  | w :: ws => workerCost reached w.pc + costSum reached ws

/-- Steps `Start` itself can still take, with the first steps of the workers it will launch. -/
def mainCost (s : Pool) : Nat :=
  match s.main with
  | .launching => 6 * (s.c.numGoroutines - s.i).toNat + 2
  | .waiting => 1
  | .returned => 0

/-- The variant: it falls with every step of `Start` and of its workers. -/
def potential (s : Pool) : Nat :=
  mainCost s + 3 * (s.c.target - s.c.value).toNat + costSum (IsReached s.c) s.workers

/-! ## Basic facts -/

theorem wrapInt_of_inRange {x : Int} (h : InRange x) : wrapInt x = x := by
  unfold InRange minInt maxInt at h
  unfold wrapInt
  omega

theorem inRange_wrapInt (x : Int) : InRange (wrapInt x) := by
  unfold InRange minInt maxInt wrapInt
  omega

/-- The increment `c.value++` never overflows where `Increment` performs it. -/
theorem wrapInt_succ {v t : Int} (hv : InRange v) (ht : InRange t) (h : v < t) :
    wrapInt (v + 1) = v + 1 := by
  apply wrapInt_of_inRange
  unfold InRange minInt maxInt at *
  omega

/-- What `Increment` does below the target, on a pending signal. -/
theorem Increment_below {c : Counter} (hv : InRange c.value) (ht : InRange c.target)
    (hp : c.done.closed = false) (hlt : c.value < c.target) :
    Increment c = .ok { c with value := c.value + 1,
                               done := { c.done with closed := decide (c.value + 1 = c.target) } } := by
  unfold Increment
  rw [if_pos hlt]
  simp only [wrapInt_succ hv ht hlt, closeChan, hp]
  by_cases h : c.value + 1 = c.target
  · have h2 : c.value + 1 ≥ c.target := by omega
    simp [h]
  · have h2 : ¬ c.value + 1 ≥ c.target := by omega
    simp [h, h2]
    cases hd : c.done
    simp [hd] at hp
    simp [hp]

/-- What `Increment` does at or above the target. -/
theorem Increment_reached {c : Counter} (hge : c.target ≤ c.value) : Increment c = .ok c := by
  unfold Increment
  rw [if_neg (by omega)]

/-! ## The invariant under the two mutating methods -/

theorem Good_NewCounter {t : Int} (n : Int) (ht : InRange t) : Good (NewCounter t n) := by
  refine ⟨ht, le_refl _, ?_, ?_⟩
  · show (0 : Int) ≤ max t 0
    exact le_max_right _ _
  · show (false = true ↔ (0 < t ∧ t ≤ 0))
    constructor
    · intro h; cases h
    · intro h; omega

theorem Good_Reset {c : Counter} (h : Good c) : Good (Reset c) := by
  obtain ⟨ht, -, -, -⟩ := h
  refine ⟨ht, le_refl _, ?_, ?_⟩
  · show (0 : Int) ≤ max c.target 0
    exact le_max_right _ _
  · show (false = true ↔ (0 < c.target ∧ c.target ≤ 0))
    constructor
    · intro h; cases h
    · intro h; omega

theorem Good.value_inRange {c : Counter} (h : Good c) : InRange c.value := by
  obtain ⟨ht, h0, hle, -⟩ := h
  unfold InRange minInt maxInt at *
  omega

/-- On a good state `Increment` returns normally, in a good state, having added one to
`value` exactly when it was below the target. -/
theorem Increment_Good {c : Counter} (h : Good c) :
    ∃ c1, Increment c = .ok c1 ∧ Good c1 ∧ c1.target = c.target ∧
      c1.numGoroutines = c.numGoroutines ∧ c1.done.id = c.done.id ∧
      c1.value = (if c.value < c.target then c.value + 1 else c.value) := by
  by_cases hlt : c.value < c.target
  · have hp : c.done.closed = false := by
      rcases hc : c.done.closed with _ | _
      · rfl
      · have := (h.2.2.2.1 hc).2; omega
    refine ⟨_, Increment_below h.value_inRange h.1 hp hlt, ?_, rfl, rfl, rfl, ?_⟩
    · obtain ⟨ht, h0, hle, -⟩ := h
      refine ⟨ht, ?_, ?_, ?_⟩
      · show (0 : Int) ≤ c.value + 1
        omega
      · show c.value + 1 ≤ max c.target 0
        omega
      · show (decide (c.value + 1 = c.target) = true ↔ (0 < c.target ∧ c.target ≤ c.value + 1))
        rw [decide_eq_true_iff]
        omega
    · show c.value + 1 = _
      rw [if_pos hlt]
  · refine ⟨c, Increment_reached (by omega), h, rfl, rfl, rfl, ?_⟩
    rw [if_neg hlt]

theorem applyOp_Good {c : Counter} (h : Good c) (op : Op) :
    ∃ c1, applyOp c op = .ok c1 ∧ Good c1 ∧ c1.target = c.target ∧
      c1.numGoroutines = c.numGoroutines := by
  cases op with
  | increment =>
    obtain ⟨c1, h1, h2, h3, h4, -⟩ := Increment_Good h
    exact ⟨c1, h1, h2, h3, h4⟩
  | reset => exact ⟨Reset c, rfl, Good_Reset h, rfl, rfl⟩

theorem applyOps_Good {c : Counter} (h : Good c) (ops : List Op) :
    ∃ c1, applyOps c ops = .ok c1 ∧ Good c1 ∧ c1.target = c.target ∧
      c1.numGoroutines = c.numGoroutines := by
  induction ops generalizing c with
  | nil => exact ⟨c, rfl, h, rfl, rfl⟩
  | cons op ops ih =>
    obtain ⟨c1, h1, h2, h3, h4⟩ := applyOp_Good h op
    obtain ⟨c2, k1, k2, k3, k4⟩ := ih h2
    refine ⟨c2, ?_, k2, k3.trans h3, k4.trans h4⟩
    simp only [applyOps, h1, k1]

theorem applyOps_append (c : Counter) (a b : List Op) :
    applyOps c (a ++ b) =
      match applyOps c a with
      | .ok c1 => applyOps c1 b
      | .error e => .error e := by
  induction a generalizing c with
  | nil => rfl
  | cons op a ih =>
    simp only [List.cons_append, applyOps]
    cases applyOp c op with
    | ok c1 => exact ih c1
    | error e => rfl

/-- Repeated `Increment` from a good state: the value climbs by one per call up to the
target and every call that changed it is counted. -/
theorem increments_Good {c : Counter} (h : Good c) (k : Nat) :
    ∃ c1, applyOps c (List.replicate k .increment) = .ok c1 ∧ Good c1 ∧
      c1.target = c.target ∧ c1.numGoroutines = c.numGoroutines ∧ c1.done.id = c.done.id ∧
      c1.value = min (c.value + k) (max c.target 0) ∧
      (countChanges c (List.replicate k .increment) : Int) = c1.value - c.value := by
  induction k generalizing c with
  | zero =>
    refine ⟨c, rfl, h, rfl, rfl, rfl, ?_, ?_⟩
    · have := h.2.2.1
      simp only [Nat.cast_zero, add_zero]
      omega
    · simp [countChanges]
  | succ k ih =>
    obtain ⟨c1, h1, h2, h3, h4, h5, h6⟩ := Increment_Good h
    obtain ⟨c2, k1, k2, k3, k4, k5, k6, k7⟩ := ih h2
    refine ⟨c2, ?_, k2, k3.trans h3, k4.trans h4, k5.trans h5, ?_, ?_⟩
    · simp only [List.replicate_succ, applyOps, applyOp, h1, k1]
    · rw [k6, h3, h6]
      have := h.2.2.1
      have := h.2.1
      push_cast
      split_ifs <;> omega
    · simp only [List.replicate_succ, countChanges, applyOp, h1]
      push_cast
      rw [k7, h6]
      split_ifs <;> omega

/-- The guard alone, for an arbitrary target: `Increment` never closes a closed channel. -/
theorem Increment_Fired {c : Counter} (h : Fired c) :
    ∃ c1, Increment c = .ok c1 ∧ Fired c1 ∧ c1.target = c.target ∧
      c1.numGoroutines = c.numGoroutines := by
  unfold Increment
  by_cases hlt : c.value < c.target
  · rw [if_pos hlt]
    have hp : c.done.closed = false := by
      rcases hc : c.done.closed with _ | _
      · rfl
      · have := h hc; omega
    by_cases hge : wrapInt (c.value + 1) ≥ c.target
    · simp only [hge, closeChan, hp]
      refine ⟨_, rfl, ?_, rfl, rfl⟩
      intro _
      exact hge
    · simp only [hge]
      refine ⟨_, rfl, ?_, rfl, rfl⟩
      intro hc
      simp [hp] at hc
  · rw [if_neg hlt]
    exact ⟨c, rfl, h, rfl, rfl⟩

theorem applyOps_Fired {c : Counter} (h : Fired c) (ops : List Op) :
    ∃ c1, applyOps c ops = .ok c1 ∧ Fired c1 ∧ c1.target = c.target ∧
      c1.numGoroutines = c.numGoroutines := by
  induction ops generalizing c with
  | nil => exact ⟨c, rfl, h, rfl, rfl⟩
  | cons op ops ih =>
    cases op with
    | increment =>
      obtain ⟨c1, h1, h2, h3, h4⟩ := Increment_Fired h
      obtain ⟨c2, k1, k2, k3, k4⟩ := ih h2
      exact ⟨c2, by simp only [applyOps, applyOp, h1, k1], k2, k3.trans h3, k4.trans h4⟩
    | reset =>
      have h2 : Fired (Reset c) := by
        intro hc
        cases hc
      obtain ⟨c2, k1, k2, k3, k4⟩ := ih h2
      exact ⟨c2, by simp only [applyOps, applyOp, k1], k2, k3, k4⟩

/-! ## Lists of workers -/

theorem liveCount_nonneg (ws : List Worker) : 0 ≤ liveCount ws := by
  induction ws with
  | nil => exact le_refl _
  | cons w ws ih =>
    simp only [liveCount]
    split_ifs <;> omega

theorem liveCount_append (a b : List Worker) : liveCount (a ++ b) = liveCount a + liveCount b := by
  induction a with
  | nil => simp [liveCount]
  | cons w a ih =>
    show (if w.pc = .exited then (0 : Int) else 1) + liveCount (a ++ b) =
      (if w.pc = .exited then (0 : Int) else 1) + liveCount a + liveCount b
    rw [ih]
    omega

theorem mem_of_get? {ws : List Worker} {k : Nat} {w : Worker} (h : ws.get? k = some w) :
    w ∈ ws := by
  induction ws generalizing k with
  | nil => simp at h
  | cons v ws ih =>
    cases k with
    | zero =>
      simp only [List.get?] at h
      cases h
      exact List.mem_cons_self _ _
    | succ k =>
      simp only [List.get?] at h
      exact List.mem_cons_of_mem _ (ih h)

theorem liveCount_set {ws : List Worker} {k : Nat} {w : Worker} (h : ws.get? k = some w)
    (v : Worker) :
    liveCount (ws.set k v) =
      liveCount ws - (if w.pc = .exited then 0 else 1) + (if v.pc = .exited then 0 else 1) := by
  induction ws generalizing k with
  | nil => simp at h
  | cons u ws ih =>
    cases k with
    | zero =>
      simp only [List.get?] at h
      cases h
      simp only [List.set, liveCount]
      omega
    | succ k =>
      simp only [List.get?] at h
      simp only [List.set, liveCount, ih h]
      omega

theorem ids_set {ws : List Worker} {k : Nat} {w : Worker} (h : ws.get? k = some w)
    (p : WorkerPC) :
    (ws.set k { w with pc := p }).map Worker.goroutineID = ws.map Worker.goroutineID := by
  induction ws generalizing k with
  | nil => simp at h
  | cons u ws ih =>
    cases k with
    | zero =>
      simp only [List.get?] at h
      cases h
      rfl
    | succ k =>
      simp only [List.get?] at h
      simp only [List.set, List.map, ih h]

theorem mem_set {ws : List Worker} {k : Nat} {v u : Worker} (h : u ∈ ws.set k v) :
    u ∈ ws ∨ u = v := by
  induction ws generalizing k with
  | nil => simp at h
  | cons x ws ih =>
    cases k with
    | zero =>
      simp only [List.set, List.mem_cons] at h
      rcases h with h | h
      · exact Or.inr h
      · exact Or.inl (List.mem_cons_of_mem _ h)
    | succ k =>
      simp only [List.set, List.mem_cons] at h
      rcases h with h | h
      · exact Or.inl (h ▸ List.mem_cons_self _ _)
      · rcases ih h with h | h
        · exact Or.inl (List.mem_cons_of_mem _ h)
        · exact Or.inr h

theorem liveCount_pos {ws : List Worker} {w : Worker} (hm : w ∈ ws) (hw : w.pc ≠ .exited) :
    0 < liveCount ws := by
  induction ws with
  | nil => simp at hm
  | cons u ws ih =>
    simp only [List.mem_cons] at hm
    simp only [liveCount]
    have := liveCount_nonneg ws
    rcases hm with hm | hm
    · subst hm
      rw [if_neg hw]
      omega
    · have := ih hm
      split_ifs <;> omega

theorem all_exited_of_liveCount {ws : List Worker} (h : liveCount ws = 0) :
    ∀ w ∈ ws, w.pc = .exited := by
  intro w hm
  by_contra hw
  have := liveCount_pos hm hw
  omega

/-! ## The invariant of the worker pool -/

theorem set_eq_nil {ws : List Worker} {k : Nat} {v : Worker} (h : ws.set k v = []) : ws = [] := by
  cases ws with
  | nil => rfl
  | cons u ws => cases k <;> simp [List.set] at h

theorem PoolInv_start {c0 : Counter} (h : Good c0) (hn : InRange c0.numGoroutines) :
    PoolInv c0 (Start.init c0) where
  good := h
  target_eq := rfl
  num_eq := rfl
  chan_eq := rfl
  num_inRange := hn
  i_nonneg := le_refl _
  i_le := le_max_right _ _
  length_eq := rfl
  ids := rfl
  launched := fun h => absurd rfl h
  wg_eq := rfl
  returned := fun h => by cases h
  exited := fun w hw => by cases hw
  incrementing := fun w hw => by cases hw
  untouched := fun _ => rfl

/-- A worker moves on inside its loop. -/
theorem PoolInv.setPc {c0 : Counter} {s : Pool} {k : Nat} {w : Worker} (h : PoolInv c0 s)
    (hget : s.workers.get? k = some w) (hw : w.pc ≠ .exited) (p : WorkerPC) (hp : p ≠ .exited)
    (hinc : p = .atIncrement → 0 < s.c.target) :
    PoolInv c0 { s with workers := s.workers.set k { w with pc := p } } where
  good := h.good
  target_eq := h.target_eq
  num_eq := h.num_eq
  chan_eq := h.chan_eq
  num_inRange := h.num_inRange
  i_nonneg := h.i_nonneg
  i_le := h.i_le
  length_eq := by
    show ((s.workers.set k { w with pc := p }).length : Int) = s.i
    rw [List.length_set]
    exact h.length_eq
  ids := by
    show (s.workers.set k { w with pc := p }).map Worker.goroutineID =
      (List.range (s.workers.set k { w with pc := p }).length).map Int.ofNat
    rw [ids_set hget, List.length_set]
    exact h.ids
  launched := h.launched
  wg_eq := by
    show s.wg = liveCount (s.workers.set k { w with pc := p })
    rw [liveCount_set hget, if_neg hw, if_neg hp, h.wg_eq]
    omega
  returned := h.returned
  exited := by
    intro u hu hx
    rcases mem_set hu with hu | hu
    · exact h.exited u hu hx
    · subst hu
      exact absurd hx hp
  incrementing := by
    intro u hu hx
    rcases mem_set hu with hu | hu
    · exact h.incrementing u hu hx
    · subst hu
      exact hinc hx
  untouched := fun he => h.untouched (set_eq_nil he)

/-- A worker returns, having seen the target reached. -/
theorem PoolInv.exit {c0 : Counter} {s : Pool} {k : Nat} {w : Worker} (h : PoolInv c0 s)
    (hget : s.workers.get? k = some w) (hw : w.pc ≠ .exited) (hr : s.c.target ≤ s.c.value) :
    0 ≤ s.wg - 1 ∧
      PoolInv c0 { s with wg := s.wg - 1, workers := s.workers.set k { w with pc := .exited } } := by
  have hpos : 0 < s.wg := by
    rw [h.wg_eq]
    exact liveCount_pos (mem_of_get? hget) hw
  refine ⟨by omega, ?_⟩
  exact
    { good := h.good
      target_eq := h.target_eq
      num_eq := h.num_eq
      chan_eq := h.chan_eq
      num_inRange := h.num_inRange
      i_nonneg := h.i_nonneg
      i_le := h.i_le
      length_eq := by
        show ((s.workers.set k { w with pc := .exited }).length : Int) = s.i
        rw [List.length_set]
        exact h.length_eq
      ids := by
        show (s.workers.set k { w with pc := .exited }).map Worker.goroutineID =
          (List.range (s.workers.set k { w with pc := .exited }).length).map Int.ofNat
        rw [ids_set hget, List.length_set]
        exact h.ids
      launched := h.launched
      wg_eq := by
        show s.wg - 1 = liveCount (s.workers.set k { w with pc := .exited })
        rw [liveCount_set hget, if_neg hw, h.wg_eq]
        simp
      returned := by
        intro hm
        have := h.returned hm
        omega
      exited := fun _ _ _ => hr
      incrementing := by
        intro u hu hx
        rcases mem_set hu with hu | hu
        · exact h.incrementing u hu hx
        · subst hu
          cases hx
      untouched := fun he => h.untouched (set_eq_nil he) }

/-- The counter is replaced by the result of an `Increment`. -/
theorem PoolInv.setCounter {c0 : Counter} {s : Pool} {c1 : Counter} (h : PoolInv c0 s)
    (hg : Good c1) (ht : c1.target = s.c.target) (hn : c1.numGoroutines = s.c.numGoroutines)
    (hid : c1.done.id = s.c.done.id) (hv : s.c.value ≤ c1.value) (hne : s.workers ≠ []) :
    PoolInv c0 { s with c := c1 } where
  good := hg
  target_eq := ht.trans h.target_eq
  num_eq := hn.trans h.num_eq
  chan_eq := hid.trans h.chan_eq
  num_inRange := by
    show InRange c1.numGoroutines
    rw [hn]
    exact h.num_inRange
  i_nonneg := h.i_nonneg
  i_le := by
    show s.i ≤ max c1.numGoroutines 0
    rw [hn]
    exact h.i_le
  length_eq := h.length_eq
  ids := h.ids
  launched := by
    intro hm
    show c1.numGoroutines ≤ s.i
    rw [hn]
    exact h.launched hm
  wg_eq := h.wg_eq
  returned := h.returned
  exited := by
    intro u hu hx
    show c1.target ≤ c1.value
    have := h.exited u hu hx
    omega
  incrementing := by
    intro u hu hx
    show 0 < c1.target
    rw [ht]
    exact h.incrementing u hu hx
  untouched := fun he => absurd he hne

theorem PoolInv.i_inRange {c0 : Counter} {s : Pool} (h : PoolInv c0 s) : InRange s.i := by
  have h1 := h.i_nonneg
  have h2 := h.i_le
  have h3 := h.num_inRange
  unfold InRange minInt maxInt at *
  omega

/-- The launch loop of `Start` launches one more goroutine. -/
theorem PoolInv.launch {c0 : Counter} {s : Pool} (h : PoolInv c0 s) (hm : s.main = .launching)
    (hi : s.i < s.c.numGoroutines) :
    PoolInv c0 { s with wg := s.wg + 1,
                        workers := s.workers ++ [{ goroutineID := s.i, pc := .atSelect }],
                        i := wrapInt (s.i + 1) } := by
  have hw : wrapInt (s.i + 1) = s.i + 1 := wrapInt_succ h.i_inRange h.num_inRange hi
  have hlen := h.length_eq
  exact
    { good := h.good
      target_eq := h.target_eq
      num_eq := h.num_eq
      chan_eq := h.chan_eq
      num_inRange := h.num_inRange
      i_nonneg := by
        show 0 ≤ wrapInt (s.i + 1)
        rw [hw]
        have := h.i_nonneg
        omega
      i_le := by
        show wrapInt (s.i + 1) ≤ max s.c.numGoroutines 0
        rw [hw]
        omega
      length_eq := by
        show ((s.workers ++ [(⟨s.i, .atSelect⟩ : Worker)]).length : Int) = wrapInt (s.i + 1)
        rw [hw, List.length_append]
        simp only [List.length_singleton, Nat.cast_add, Nat.cast_one]
        omega
      ids := by
        show (s.workers ++ [(⟨s.i, .atSelect⟩ : Worker)]).map Worker.goroutineID =
          (List.range (s.workers ++ [(⟨s.i, .atSelect⟩ : Worker)]).length).map Int.ofNat
        rw [List.length_append, List.length_singleton, List.range_succ, List.map_append,
          List.map_append, h.ids]
        simp only [List.map_cons, List.map_nil, List.append_cancel_left_eq, List.cons.injEq,
          and_true]
        exact hlen.symm
      launched := fun hne => absurd hm hne
      wg_eq := by
        show s.wg + 1 = liveCount (s.workers ++ [(⟨s.i, .atSelect⟩ : Worker)])
        rw [liveCount_append, h.wg_eq]
        simp [liveCount]
      returned := by
        intro hr
        have hr2 : s.main = .returned := hr
        rw [hm] at hr2
        cases hr2
      exited := by
        intro u hu hx
        rcases List.mem_append.1 hu with hu | hu
        · exact h.exited u hu hx
        · simp only [List.mem_singleton] at hu
          subst hu
          cases hx
      incrementing := by
        intro u hu hx
        rcases List.mem_append.1 hu with hu | hu
        · exact h.incrementing u hu hx
        · simp only [List.mem_singleton] at hu
          subst hu
          cases hx
      untouched := by
        intro he
        have he2 : s.workers ++ [(⟨s.i, .atSelect⟩ : Worker)] = [] := he
        simp at he2 }

/-- Every step from a state of the invariant is either disabled or leads, without panic, to
a state of the invariant in which `value` is the same or one larger. -/
theorem step_inv {c0 : Counter} {s : Pool} (h : PoolInv c0 s) (l : Label) :
    Start.step s l = .disabled ∨
      ∃ s1, Start.step s l = .next s1 ∧ PoolInv c0 s1 ∧ s.c.value ≤ s1.c.value ∧
        s1.c.value ≤ s.c.value + 1 := by
  cases l with
  | main =>
    rcases hm : s.main with _ | _ | _
    · by_cases hi : s.i < s.c.numGoroutines
      · right
        refine ⟨_, ?_, h.launch hm hi, le_refl _, by show s.c.value ≤ s.c.value + 1; omega⟩
        simp only [Start.step, hm, if_pos hi]
      · right
        refine ⟨{ s with main := .waiting }, ?_, ?_, le_refl _,
          by show s.c.value ≤ s.c.value + 1; omega⟩
        · simp only [Start.step, hm, if_neg hi]
        · exact
            { good := h.good
              target_eq := h.target_eq
              num_eq := h.num_eq
              chan_eq := h.chan_eq
              num_inRange := h.num_inRange
              i_nonneg := h.i_nonneg
              i_le := h.i_le
              length_eq := h.length_eq
              ids := h.ids
              launched := fun _ => by
                show s.c.numGoroutines ≤ s.i
                omega
              wg_eq := h.wg_eq
              returned := fun hr => by cases hr
              exited := h.exited
              incrementing := h.incrementing
              untouched := h.untouched }
    · by_cases hz : s.wg = 0
      · right
        refine ⟨{ s with main := .returned }, ?_, ?_, le_refl _,
          by show s.c.value ≤ s.c.value + 1; omega⟩
        · simp only [Start.step, hm, if_pos hz]
        · exact
            { good := h.good
              target_eq := h.target_eq
              num_eq := h.num_eq
              chan_eq := h.chan_eq
              num_inRange := h.num_inRange
              i_nonneg := h.i_nonneg
              i_le := h.i_le
              length_eq := h.length_eq
              ids := h.ids
              launched := fun _ => h.launched (by rw [hm]; exact fun hc => by cases hc)
              wg_eq := h.wg_eq
              returned := fun _ => hz
              exited := h.exited
              incrementing := h.incrementing
              untouched := h.untouched }
      · left
        simp only [Start.step, hm, if_neg hz]
    · left
      simp only [Start.step, hm]
  | worker k =>
    rcases hget : s.workers.get? k with _ | w
    · left
      simp only [Start.step, hget]
    · rcases hpc : w.pc with _ | _ | _ | _
      · have hw : w.pc ≠ .exited := by rw [hpc]; exact fun hc => by cases hc
        right
        rcases hcl : s.c.done.closed with _ | _
        · refine ⟨_, ?_, h.setPc hget hw .atIsReached (fun hc => by cases hc)
            (fun hc => by cases hc), le_refl _, by show s.c.value ≤ s.c.value + 1; omega⟩
          simp only [Start.step, hget, hpc, hcl, Bool.false_eq_true, ↓reduceIte]
        · have hr : s.c.target ≤ s.c.value := (h.good.2.2.2.1 hcl).2
          obtain ⟨hwg, hinv⟩ := h.exit hget hw hr
          refine ⟨_, ?_, hinv, le_refl _, by show s.c.value ≤ s.c.value + 1; omega⟩
          have hwg2 : ¬ s.wg - 1 < 0 := by omega
          simp only [Start.step, hget, hpc, hcl, ↓reduceIte, Start.workerExit, wgDone, if_neg hwg2]
      · have hw : w.pc ≠ .exited := by rw [hpc]; exact fun hc => by cases hc
        right
        by_cases hr : s.c.target ≤ s.c.value
        · obtain ⟨hwg, hinv⟩ := h.exit hget hw hr
          refine ⟨_, ?_, hinv, le_refl _, by show s.c.value ≤ s.c.value + 1; omega⟩
          have hwg2 : ¬ s.wg - 1 < 0 := by omega
          have hR : IsReached s.c = true := by simp [IsReached, hr]
          simp only [Start.step, hget, hpc, hR, ↓reduceIte, Start.workerExit, wgDone, if_neg hwg2]
        · have hpos : 0 < s.c.target := by
            have := h.good.2.1
            omega
          refine ⟨_, ?_, h.setPc hget hw .atIncrement (fun hc => by cases hc)
            (fun _ => hpos), le_refl _, by show s.c.value ≤ s.c.value + 1; omega⟩
          have hR : IsReached s.c = false := by simp [IsReached, hr]
          simp only [Start.step, hget, hpc, hR, Bool.false_eq_true, ↓reduceIte]
      · have hw : w.pc ≠ .exited := by rw [hpc]; exact fun hc => by cases hc
        right
        obtain ⟨c1, h1, h2, h3, h4, h5, h6⟩ := Increment_Good h.good
        have hv : s.c.value ≤ c1.value ∧ c1.value ≤ s.c.value + 1 := by
          rw [h6]
          split_ifs <;> omega
        have hne : s.workers ≠ [] := by
          intro he
          rw [he] at hget
          simp at hget
        have hinv := h.setCounter h2 h3 h4 h5 hv.1 hne
        have hinv2 := hinv.setPc (k := k) (w := w) hget hw .atSelect (fun hc => by cases hc)
          (fun hc => by cases hc)
        refine ⟨_, ?_, hinv2, hv.1, hv.2⟩
        simp only [Start.step, hget, hpc, h1]
      · left
        simp only [Start.step, hget, hpc]

/-- Runs keep the invariant, never panic, and never lower `value`. -/
theorem run_inv {c0 : Counter} {s : Pool} (h : PoolInv c0 s) (sched : List Label) :
    Start.run s sched = .disabled ∨
      ∃ s1, Start.run s sched = .next s1 ∧ PoolInv c0 s1 ∧ s.c.value ≤ s1.c.value ∧
        (Start.changes s sched : Int) = s1.c.value - s.c.value := by
  induction sched generalizing s with
  | nil =>
    right
    exact ⟨s, rfl, h, le_refl _, by simp [Start.changes]⟩
  | cons l ls ih =>
    rcases step_inv h l with hd | ⟨s1, h1, h2, h3, h4⟩
    · left
      simp only [Start.run, hd]
    · rcases ih h2 with hd | ⟨s2, k1, k2, k3, k4⟩
      · left
        simp only [Start.run, h1, hd]
      · right
        refine ⟨s2, ?_, k2, by omega, ?_⟩
        · simp only [Start.run, h1, k1]
        · simp only [Start.changes, h1]
          push_cast
          rw [k4]
          split_ifs <;> omega

/-! ## Independence of the channel identity -/

/-- The method `Increment` does not depend on the identity of the done channel. -/
theorem Increment_erase (c : Counter) :
    Increment (eraseChanId c) =
      match Increment c with
      | .ok c1 => .ok (eraseChanId c1)
      | .error e => .error e := by
  simp only [Increment, eraseChanId, closeChan]
  by_cases h1 : c.value < c.target
  · by_cases h2 : wrapInt (c.value + 1) ≥ c.target
    · rcases h3 : c.done.closed with _ | _ <;> simp [h1, h2, h3]
    · simp [h1, h2]
  · simp [h1]

/-- A step does not depend on the identity of the done channel. -/
theorem step_erase (s : Pool) (l : Label) :
    Start.step (Pool.eraseChanId s) l = (Start.step s l).map Pool.eraseChanId := by
  cases l with
  | main =>
    rcases hm : s.main with _ | _ | _
    · by_cases hi : s.i < s.c.numGoroutines
      · have hi2 : (Pool.eraseChanId s).i < (Pool.eraseChanId s).c.numGoroutines := hi
        have hm2 : (Pool.eraseChanId s).main = .launching := hm
        simp only [Start.step, hm, hm2, if_pos hi, if_pos hi2, Outcome.map]
        rfl
      · have hi2 : ¬ (Pool.eraseChanId s).i < (Pool.eraseChanId s).c.numGoroutines := hi
        have hm2 : (Pool.eraseChanId s).main = .launching := hm
        simp only [Start.step, hm, hm2, if_neg hi, if_neg hi2, Outcome.map]
        rfl
    · have hm2 : (Pool.eraseChanId s).main = .waiting := hm
      by_cases hz : s.wg = 0
      · have hz2 : (Pool.eraseChanId s).wg = 0 := hz
        simp only [Start.step, hm, hm2, if_pos hz, if_pos hz2, Outcome.map]
        rfl
      · have hz2 : ¬ (Pool.eraseChanId s).wg = 0 := hz
        simp only [Start.step, hm, hm2, if_neg hz, if_neg hz2, Outcome.map]
    · have hm2 : (Pool.eraseChanId s).main = .returned := hm
      simp only [Start.step, hm, hm2, Outcome.map]
  | worker k =>
    rcases hget : s.workers.get? k with _ | w
    · have hget2 : (Pool.eraseChanId s).workers.get? k = none := hget
      simp only [Start.step, hget, hget2, Outcome.map]
    · have hget2 : (Pool.eraseChanId s).workers.get? k = some w := hget
      rcases hpc : w.pc with _ | _ | _ | _
      · have hcl : (Pool.eraseChanId s).c.done.closed = s.c.done.closed := rfl
        simp only [Start.step, hget, hget2, hpc, hcl, Start.workerExit]
        rcases s.c.done.closed with _ | _
        · simp only [Bool.false_eq_true, ↓reduceIte, Outcome.map]
          rfl
        · simp only [↓reduceIte]
          have hwg : (Pool.eraseChanId s).wg = s.wg := rfl
          rw [hwg]
          cases wgDone s.wg <;> rfl
      · have hR : IsReached (Pool.eraseChanId s).c = IsReached s.c := rfl
        simp only [Start.step, hget, hget2, hpc, hR, Start.workerExit]
        rcases IsReached s.c with _ | _
        · simp only [Bool.false_eq_true, ↓reduceIte, Outcome.map]
          rfl
        · simp only [↓reduceIte]
          have hwg : (Pool.eraseChanId s).wg = s.wg := rfl
          rw [hwg]
          cases wgDone s.wg <;> rfl
      · have hI : Increment (Pool.eraseChanId s).c = _ := Increment_erase s.c
        simp only [Start.step, hget, hget2, hpc, hI]
        cases Increment s.c <;> rfl
      · simp only [Start.step, hget, hget2, hpc, Outcome.map]

/-- A run does not depend on the identity of the done channel. -/
theorem run_erase (s : Pool) (sched : List Label) :
    Start.run (Pool.eraseChanId s) sched = (Start.run s sched).map Pool.eraseChanId := by
  induction sched generalizing s with
  | nil => rfl
  | cons l ls ih =>
    simp only [Start.run, step_erase]
    cases Start.step s l with
    | next s1 => exact ih s1
    | panic p => rfl
    | disabled => rfl

/-! ## The loop of one worker -/

theorem Good.eq_of_nonpos {c : Counter} (h : Good c) (ht : c.target ≤ 0) :
    c = { value := 0, target := c.target, numGoroutines := c.numGoroutines,
          done := { id := c.done.id, closed := false } } := by
  obtain ⟨-, h0, hle, hcl⟩ := h
  have hv : c.value = 0 := by omega
  have hc : c.done.closed = false := by
    rcases hd : c.done.closed with _ | _
    · rfl
    · have := (hcl.1 hd).1
      omega
  rcases c with ⟨v, t, n, ⟨i, cl⟩⟩
  simp only at hv hc
  subst hv hc
  rfl

/-- The worker loop from a good state: it stops once fuel exceeds `target - value`, having
called `Increment` once per missing unit. -/
theorem workerLoop_Good {c : Counter} (h : Good c) (fuel calls : Nat)
    (hf : (c.target - c.value).toNat < fuel) :
    workerLoop fuel c calls =
      some (.ok ({ c with value := max c.target 0,
                          done := { c.done with closed := decide (0 < c.target) } },
        calls + (max c.target 0 - c.value).toNat)) := by
  induction fuel generalizing c calls with
  | zero => omega
  | succ fuel ih =>
    obtain ⟨ht, h0, hle, hcl⟩ := h
    have hstop : c.target ≤ c.value →
        (some (Except.ok (c, calls)) : Option (Except Panic (Counter × Nat))) =
          some (.ok ({ c with value := max c.target 0,
                              done := { c.done with closed := decide (0 < c.target) } },
            calls + (max c.target 0 - c.value).toNat)) := by
      intro hge
      have hv : c.value = max c.target 0 := by omega
      have hc : c.done.closed = decide (0 < c.target) := by
        rcases hd : c.done.closed with _ | _
        · symm
          rw [decide_eq_false_iff_not]
          intro hp
          have := hcl.2 ⟨hp, hge⟩
          rw [hd] at this
          cases this
        · symm
          rw [decide_eq_true_iff]
          exact (hcl.1 hd).1
      rw [← hv, ← hc]
      simp
    rcases hd : c.done.closed with _ | _
    · by_cases hr : c.target ≤ c.value
      · have hR : IsReached c = true := by simp [IsReached, hr]
        simp only [workerLoop, hd, hR, Bool.false_eq_true, ↓reduceIte]
        exact hstop hr
      · have hR : IsReached c = false := by simp [IsReached, hr]
        have hg : Good c := ⟨ht, h0, hle, hcl⟩
        obtain ⟨c1, h1, h2, h3, h4, h5, h6⟩ := Increment_Good hg
        rw [if_pos (by omega)] at h6
        simp only [workerLoop, hd, hR, Bool.false_eq_true, ↓reduceIte, h1]
        rw [ih h2 (calls + 1) (by rw [h3, h6]; omega)]
        have ec : ({ c1 with value := max c1.target 0,
                             done := { c1.done with closed := decide (0 < c1.target) } } : Counter) =
            { c with value := max c.target 0,
                     done := { c.done with closed := decide (0 < c.target) } } := by
          simp only [h3, h4, h5]
        have en : calls + 1 + (max c1.target 0 - c1.value).toNat =
            calls + (max c.target 0 - c.value).toNat := by
          rw [h3, h6]
          omega
        rw [ec, en]
    · have hge := (hcl.1 hd).2
      simp only [workerLoop, hd, ↓reduceIte]
      exact hstop hge

/-! ## Runs of the launch loop -/

theorem workerLoop_none {c : Counter} (h : Good c) (fuel calls : Nat)
    (hf : (fuel : Int) ≤ max c.target 0 - c.value) : workerLoop fuel c calls = none := by
  induction fuel generalizing c calls with
  | zero => rfl
  | succ fuel ih =>
    have hlt : c.value < c.target := by
      have := h.2.1
      push_cast at hf
      omega
    have hd : c.done.closed = false := by
      rcases hd : c.done.closed with _ | _
      · rfl
      · have := (h.2.2.2.1 hd).2
        omega
    have hR : IsReached c = false := by simp [IsReached, hlt]
    obtain ⟨c1, h1, h2, h3, -, -, h6⟩ := Increment_Good h
    rw [if_pos hlt] at h6
    simp only [workerLoop, hd, hR, Bool.false_eq_true, ↓reduceIte, h1]
    apply ih h2
    rw [h3, h6]
    push_cast at hf
    omega

theorem run_append (s : Pool) (a b : List Label) :
    Start.run s (a ++ b) =
      match Start.run s a with
      | .next s1 => Start.run s1 b
      | .panic p => .panic p
      | .disabled => .disabled := by
  induction a generalizing s with
  | nil => rfl
  | cons l a ih =>
    simp only [List.cons_append, Start.run]
    cases Start.step s l with
    | next s1 => exact ih s1
    | panic p => rfl
    | disabled => rfl

/-- The launch loop of `Start`, run without interruption for `m` more rounds. -/
theorem launch_run (c0 : Counter) (hn : InRange c0.numGoroutines) (m j : Nat)
    (h : (j : Int) + m ≤ max c0.numGoroutines 0) :
    Start.run { c := c0, wg := (j : Int), i := (j : Int), main := .launching,
                workers := launchedWorkers j } (List.replicate m .main) =
      .next { c := c0, wg := ((j + m : Nat) : Int), i := ((j + m : Nat) : Int),
              main := .launching, workers := launchedWorkers (j + m) } := by
  induction m generalizing j with
  | zero => rfl
  | succ m ih =>
    have hlt : (j : Int) < c0.numGoroutines := by
      push_cast at h
      omega
    have hw : wrapInt ((j : Int) + 1) = (j : Int) + 1 := by
      apply wrapInt_of_inRange
      unfold InRange minInt maxInt at *
      omega
    have hws : launchedWorkers j ++ [({ goroutineID := (j : Int), pc := .atSelect } : Worker)] =
        launchedWorkers (j + 1) := by
      simp only [launchedWorkers, List.range_succ, List.map_append, List.map_cons, List.map_nil]
      rfl
    have hwg : (j : Int) + 1 = ((j + 1 : Nat) : Int) := by push_cast; rfl
    simp only [List.replicate_succ, Start.run, Start.step, if_pos hlt, hw, hws]
    rw [hwg]
    rw [ih (j + 1) (by push_cast at h ⊢; omega)]
    have e : j + 1 + m = j + (m + 1) := by omega
    rw [e]

/-! ## The counter states `Start` goes through -/

/-- A step leaves the counter alone or replaces it by the result of `Increment`. -/
theorem step_counter {s s1 : Pool} {l : Label} (h : Start.step s l = .next s1) :
    s1.c = s.c ∨ Increment s.c = .ok s1.c := by
  cases l with
  | main =>
    rcases hm : s.main with _ | _ | _
    · simp only [Start.step, hm] at h
      split at h <;> (cases h; exact Or.inl rfl)
    · simp only [Start.step, hm] at h
      split at h
      · cases h; exact Or.inl rfl
      · cases h
    · simp only [Start.step, hm] at h
      cases h
  | worker k =>
    rcases hget : s.workers.get? k with _ | w
    · simp only [Start.step, hget] at h
      cases h
    · have hexit : ∀ s2, Start.workerExit s k w = .next s2 → s2.c = s.c := by
        intro s2 h2
        simp only [Start.workerExit] at h2
        split at h2
        · cases h2; rfl
        · cases h2
      rcases hpc : w.pc with _ | _ | _ | _
      · simp only [Start.step, hget, hpc] at h
        split at h
        · exact Or.inl (hexit _ h)
        · cases h; exact Or.inl rfl
      · simp only [Start.step, hget, hpc] at h
        split at h
        · exact Or.inl (hexit _ h)
        · cases h; exact Or.inl rfl
      · simp only [Start.step, hget, hpc] at h
        split at h
        · next c1 hc1 =>
          cases h
          exact Or.inr hc1
        · cases h
      · simp only [Start.step, hget, hpc] at h
        cases h

/-- The counter of a state reached by `Start` is reached by `Increment` calls alone. -/
theorem run_counter {s s1 : Pool} {sched : List Label} (h : Start.run s sched = .next s1) :
    ∃ k, applyOps s.c (List.replicate k .increment) = .ok s1.c := by
  induction sched generalizing s with
  | nil =>
    simp only [Start.run] at h
    cases h
    exact ⟨0, rfl⟩
  | cons l ls ih =>
    simp only [Start.run] at h
    split at h
    · next s2 h2 =>
      obtain ⟨k, hk⟩ := ih h
      rcases step_counter h2 with hc | hc
      · exact ⟨k, by rw [← hc]; exact hk⟩
      · exact ⟨k + 1, by simp only [List.replicate_succ, applyOps, applyOp, hc, hk]⟩
    · cases h
    · cases h

/-! ## Termination of `Start` -/

theorem costSum_append (r : Bool) (a b : List Worker) :
    costSum r (a ++ b) = costSum r a + costSum r b := by
  induction a with
  | nil => simp [costSum]
  | cons w a ih =>
    show workerCost r w.pc + costSum r (a ++ b) = workerCost r w.pc + costSum r a + costSum r b
    rw [ih]
    omega

theorem costSum_set (r : Bool) {ws : List Worker} {k : Nat} {w : Worker}
    (h : ws.get? k = some w) (v : Worker) :
    costSum r (ws.set k v) + workerCost r w.pc = costSum r ws + workerCost r v.pc := by
  induction ws generalizing k with
  | nil => simp at h
  | cons u ws ih =>
    cases k with
    | zero =>
      simp only [List.get?] at h
      cases h
      simp only [List.set, costSum]
      omega
    | succ k =>
      simp only [List.get?] at h
      have := ih h
      simp only [List.set, costSum]
      omega

theorem workerCost_reached (r : Bool) (p : WorkerPC) : workerCost true p ≤ workerCost r p := by
  cases r <;> cases p <;> simp [workerCost]

theorem workerCost_le (r : Bool) (p : WorkerPC) : workerCost r p ≤ workerCost false p := by
  cases r <;> cases p <;> simp [workerCost]

theorem costSum_le (r : Bool) (ws : List Worker) : costSum r ws ≤ costSum false ws := by
  induction ws with
  | nil => exact le_refl _
  | cons w ws ih =>
    have := workerCost_le r w.pc
    simp only [costSum]
    omega

/-- Every step lowers the variant. -/
theorem step_potential {c0 : Counter} {s s1 : Pool} {l : Label} (h : PoolInv c0 s)
    (hs : Start.step s l = .next s1) : potential s1 < potential s := by
  cases l with
  | main =>
    rcases hm : s.main with _ | _ | _
    · by_cases hi : s.i < s.c.numGoroutines
      · simp only [Start.step, hm, if_pos hi] at hs
        cases hs
        have hw : wrapInt (s.i + 1) = s.i + 1 := wrapInt_succ h.i_inRange h.num_inRange hi
        simp only [potential, mainCost, hm, hw, costSum_append, costSum]
        have : workerCost (IsReached s.c) WorkerPC.atSelect ≤ 5 := by
          cases IsReached s.c <;> simp [workerCost]
        omega
      · simp only [Start.step, hm, if_neg hi] at hs
        cases hs
        simp only [potential, mainCost, hm]
        omega
    · by_cases hz : s.wg = 0
      · simp only [Start.step, hm, if_pos hz] at hs
        cases hs
        simp only [potential, mainCost, hm]
        omega
      · simp only [Start.step, hm, if_neg hz] at hs
        cases hs
    · simp only [Start.step, hm] at hs
      cases hs
  | worker k =>
    rcases hget : s.workers.get? k with _ | w
    · simp only [Start.step, hget] at hs
      cases hs
    · have hexit : ∀ s2, Start.workerExit s k w = .next s2 → 0 < workerCost (IsReached s.c) w.pc →
          potential s2 < potential s := by
        intro s2 h2 hpos
        simp only [Start.workerExit] at h2
        split at h2
        · cases h2
          have e : costSum (IsReached s.c) (s.workers.set k { w with pc := .exited }) +
              workerCost (IsReached s.c) w.pc = costSum (IsReached s.c) s.workers + 0 :=
            costSum_set (IsReached s.c) hget { w with pc := .exited }
          simp only [potential, mainCost]
          omega
        · cases h2
      rcases hpc : w.pc with _ | _ | _ | _
      · simp only [Start.step, hget, hpc] at hs
        split at hs
        · apply hexit _ hs
          rw [hpc]
          cases IsReached s.c <;> simp [workerCost]
        · cases hs
          have := costSum_set (IsReached s.c) hget { w with pc := .atIsReached }
          rw [hpc] at this
          simp only [potential, mainCost]
          cases hR : IsReached s.c <;> simp only [hR, workerCost] at this ⊢ <;>
            simp at this ⊢ <;> omega
      · simp only [Start.step, hget, hpc] at hs
        split at hs
        · apply hexit _ hs
          rw [hpc]
          cases IsReached s.c <;> simp [workerCost]
        · next hR =>
          cases hs
          have := costSum_set (IsReached s.c) hget { w with pc := .atIncrement }
          rw [hpc] at this
          have hR2 : IsReached s.c = false := by simpa using hR
          simp only [hR2, workerCost] at this
          simp only [potential, mainCost, hR2]
          simp at this ⊢
          omega
      · simp only [Start.step, hget, hpc] at hs
        obtain ⟨c1, h1, h2, h3, h4, -, h6⟩ := Increment_Good h.good
        rw [h1] at hs
        simp only at hs
        cases hs
        by_cases hlt : s.c.value < s.c.target
        · rw [if_pos hlt] at h6
          have hR : IsReached s.c = false := by simp [IsReached, hlt]
          have e1 := costSum_set false hget { w with pc := .atSelect }
          rw [hpc] at e1
          simp only [workerCost] at e1
          simp at e1
          have e2 := costSum_le (IsReached c1) (s.workers.set k { w with pc := .atSelect })
          simp only [potential, mainCost, hR, h3, h4, h6]
          have e3 : (s.c.target - (s.c.value + 1)).toNat + 1 = (s.c.target - s.c.value).toNat := by
            omega
          omega
        · rw [if_neg hlt] at h6
          have hR : IsReached s.c = true := by
            simp only [IsReached, ge_iff_le, decide_eq_true_eq]
            omega
          have hR1 : IsReached c1 = true := by
            simp only [IsReached, ge_iff_le, decide_eq_true_eq]
            omega
          have e1 := costSum_set true hget { w with pc := .atSelect }
          rw [hpc] at e1
          simp only [workerCost] at e1
          simp at e1
          simp only [potential, mainCost, hR, hR1, h3, h4, h6]
          omega
      · simp only [Start.step, hget, hpc] at hs
        cases hs

/-- A run is no longer than the variant allows. -/
theorem run_length {c0 : Counter} {s s1 : Pool} {sched : List Label} (h : PoolInv c0 s)
    (hr : Start.run s sched = .next s1) : sched.length + potential s1 ≤ potential s := by
  induction sched generalizing s with
  | nil =>
    simp only [Start.run] at hr
    cases hr
    simp
  | cons l ls ih =>
    rcases step_inv h l with hd | ⟨s2, h1, h2, -, -⟩
    · simp only [Start.run, hd] at hr
      cases hr
    · simp only [Start.run, h1] at hr
      have := ih h2 hr
      have := step_potential h h1
      simp only [List.length_cons]
      omega

theorem exists_live {ws : List Worker} (h : 0 < liveCount ws) :
    ∃ k w, ws.get? k = some w ∧ w.pc ≠ .exited := by
  induction ws with
  | nil => simp [liveCount] at h
  | cons u ws ih =>
    by_cases hu : u.pc = .exited
    · simp only [liveCount, if_pos hu, zero_add] at h
      obtain ⟨k, w, h1, h2⟩ := ih h
      exact ⟨k + 1, w, h1, h2⟩
    · exact ⟨0, u, rfl, hu⟩

/-- A worker that has not returned can take a step. -/
theorem step_worker_enabled {c0 : Counter} {s : Pool} {k : Nat} {w : Worker} (h : PoolInv c0 s)
    (hget : s.workers.get? k = some w) (hw : w.pc ≠ .exited) :
    ∃ s1, Start.step s (.worker k) = .next s1 := by
  rcases step_inv h (.worker k) with hd | ⟨s1, h1, -⟩
  · exfalso
    have hexit : Start.workerExit s k w ≠ .disabled := by
      intro he
      simp only [Start.workerExit] at he
      split at he <;> cases he
    rcases hpc : w.pc with _ | _ | _ | _
    · simp only [Start.step, hget, hpc] at hd
      split at hd
      · exact hexit hd
      · cases hd
    · simp only [Start.step, hget, hpc] at hd
      split at hd
      · exact hexit hd
      · cases hd
    · simp only [Start.step, hget, hpc] at hd
      split at hd <;> cases hd
    · exact hw hpc
  · exact ⟨s1, h1⟩

/-- As long as `Start` has not returned, some step is enabled: no deadlock. -/
theorem step_progress {c0 : Counter} {s : Pool} (h : PoolInv c0 s) (hm : s.main ≠ .returned) :
    ∃ l s1, Start.step s l = .next s1 := by
  rcases hmain : s.main with _ | _ | _
  · by_cases hi : s.i < s.c.numGoroutines
    · exact ⟨.main, _, by simp only [Start.step, hmain, if_pos hi]; rfl⟩
    · exact ⟨.main, _, by simp only [Start.step, hmain, if_neg hi]; rfl⟩
  · by_cases hz : s.wg = 0
    · exact ⟨.main, _, by simp only [Start.step, hmain, if_pos hz]; rfl⟩
    · have hpos : 0 < liveCount s.workers := by
        have := liveCount_nonneg s.workers
        have := h.wg_eq
        omega
      obtain ⟨k, w, h1, h2⟩ := exists_live hpos
      obtain ⟨s1, h3⟩ := step_worker_enabled h h1 h2
      exact ⟨.worker k, s1, h3⟩
  · exact absurd hmain hm

/-- From every state of the invariant some schedule makes `Start` return. -/
theorem can_return {c0 : Counter} (m : Nat) :
    ∀ s : Pool, PoolInv c0 s → potential s ≤ m →
      ∃ sched s1, Start.run s sched = .next s1 ∧ s1.main = .returned := by
  induction m with
  | zero =>
    intro s h hp
    by_cases hm : s.main = .returned
    · exact ⟨[], s, rfl, hm⟩
    · obtain ⟨l, s1, h1⟩ := step_progress h hm
      have := step_potential h h1
      omega
  | succ m ih =>
    intro s h hp
    by_cases hm : s.main = .returned
    · exact ⟨[], s, rfl, hm⟩
    · obtain ⟨l, s1, h1⟩ := step_progress h hm
      have hlt := step_potential h h1
      rcases step_inv h l with hd | ⟨s2, k1, k2, -, -⟩
      · rw [hd] at h1
        cases h1
      · have e : s2 = s1 := by
          rw [k1] at h1
          cases h1
          rfl
        subst e
        obtain ⟨sched, s3, r1, r2⟩ := ih s2 k2 (by omega)
        exact ⟨l :: sched, s3, by simp only [Start.run, k1, r1], r2⟩

/-- Termination of `Start` under every scheduler: a run from `NewCounter(target, n)` has at most
`6 * max(n, 0) + 3 * max(target, 0) + 2` steps, a run that has not made `Start` return can
be continued by one more step, and some run makes `Start` return. -/
theorem Start_terminates (t n : Int) (ht : InRange t) (hn : InRange n) :
    (∀ sched s, Start.run (Start.init (NewCounter t n)) sched = .next s →
      sched.length ≤ 6 * (max n 0).toNat + 3 * (max t 0).toNat + 2 ∧
      (s.main ≠ .returned →
        ∃ l s1, Start.run (Start.init (NewCounter t n)) (sched ++ [l]) = .next s1)) ∧
    ∃ sched s, Start.run (Start.init (NewCounter t n)) sched = .next s ∧ s.main = .returned := by
  have hinv : PoolInv (NewCounter t n) (Start.init (NewCounter t n)) :=
    PoolInv_start (Good_NewCounter n ht) hn
  have hpot : potential (Start.init (NewCounter t n)) =
      6 * (max n 0).toNat + 3 * (max t 0).toNat + 2 := by
    show 6 * (n - 0).toNat + 2 + 3 * (t - 0).toNat + 0 = _
    omega
  constructor
  · intro sched s hs
    constructor
    · have := run_length hinv hs
      omega
    · intro hm
      rcases run_inv hinv sched with hd | ⟨s1, h1, h2, -, -⟩
      · rw [hd] at hs
        cases hs
      · have e : s1 = s := by
          rw [h1] at hs
          cases hs
          rfl
        subst e
        obtain ⟨l, s2, h3⟩ := step_progress h2 hm
        refine ⟨l, s2, ?_⟩
        rw [run_append, h1]
        simp only [Start.run, h3]
  · exact can_return _ _ hinv (le_refl _)

/-! ## Claims -/

/-- C1: on every counter state (with `int` fields) whose done signal is pending,
`Increment` below the target adds one to `value`, keeps `target`, `numGoroutines` and the
channel identity, and fires the signal exactly when the new value equals the target, the
test `value >= target` after the increment being the same as `value == target`; at or
above the target it returns the state unchanged in every field. -/
theorem C1_increment_contract (c : Counter) (hv : InRange c.value) (ht : InRange c.target)
    (hp : c.done.closed = false) :
    (c.value < c.target →
      ∃ c1, Increment c = .ok c1 ∧ c1.value = c.value + 1 ∧ c1.target = c.target ∧
        c1.numGoroutines = c.numGoroutines ∧ c1.done.id = c.done.id ∧
        (c1.done.closed = true ↔ c1.value = c1.target) ∧
        (c1.value ≥ c1.target ↔ c1.value = c1.target)) ∧
    (c.value ≥ c.target → Increment c = .ok c) := by
  refine ⟨fun hlt => ?_, fun hge => Increment_reached hge⟩
  refine ⟨_, Increment_below hv ht hp hlt, rfl, rfl, rfl, rfl, ?_, ?_⟩
  · simp
  · simp only [ge_iff_le]
    constructor
    · intro h; omega
    · intro h; omega

/-- C1 at `value = 2 < target = 3` (the signal fires) . -/
theorem C1_increment_contract_witness :
    (∃ c1, Increment { value := 2, target := 3, numGoroutines := 3, done := makeChan 0 } = .ok c1 ∧
        c1.value = 2 + 1 ∧ c1.target = 3 ∧ c1.numGoroutines = 3 ∧ c1.done.id = 0 ∧
        (c1.done.closed = true ↔ c1.value = c1.target) ∧
        (c1.value ≥ c1.target ↔ c1.value = c1.target)) :=
  (C1_increment_contract { value := 2, target := 3, numGoroutines := 3, done := makeChan 0 }
    (by decide) (by decide) rfl).1 (by decide)

/-- C2: for every `int` target > 0 and every finite sequence of `Increment` and `Reset` calls
on `NewCounter(target, n)`, the state before and the state after one more call both satisfy
`0 <= value <= target`, an `Increment` call never lowers `value`, and `value` gets smaller
only across a `Reset`. -/
theorem C2_value_bounds (t n : Int) (ht : InRange t) (hpos : 0 < t) (ops : List Op) (op : Op) :
    ∃ c c1, applyOps (NewCounter t n) ops = .ok c ∧ applyOp c op = .ok c1 ∧
      c.target = t ∧ c1.target = t ∧
      (0 ≤ c.value ∧ c.value ≤ c.target) ∧ (0 ≤ c1.value ∧ c1.value ≤ c1.target) ∧
      (op = .increment → c.value ≤ c1.value) ∧ (c1.value < c.value → op = .reset) := by
  obtain ⟨c, h1, h2, h3, -⟩ := applyOps_Good (Good_NewCounter n ht) ops
  have h3t : c.target = t := h3
  have hb : 0 ≤ c.value ∧ c.value ≤ c.target := by
    have := h2.2.1
    have := h2.2.2.1
    omega
  cases op with
  | increment =>
    obtain ⟨c1, k1, k2, k3, -, -, k6⟩ := Increment_Good h2
    have hb1 : 0 ≤ c1.value ∧ c1.value ≤ c1.target := by
      have := k2.2.1
      have := k2.2.2.1
      omega
    have hmono : c.value ≤ c1.value := by
      rw [k6]
      split_ifs <;> omega
    exact ⟨c, c1, h1, k1, h3t, k3.trans h3t, hb, hb1, fun _ => hmono, fun hlt => by omega⟩
  | reset =>
    refine ⟨c, Reset c, h1, rfl, h3t, h3t, hb, ⟨le_refl _, ?_⟩, ?_, fun _ => rfl⟩
    · show (0 : Int) ≤ c.target
      omega
    · intro hc
      cases hc

/-- C2 on `NewCounter(3, 2)` after increment, increment, reset, increment, at one more
increment. -/
theorem C2_value_bounds_witness :
    ∃ c c1, applyOps (NewCounter 3 2) [.increment, .increment, .reset, .increment] = .ok c ∧
      applyOp c .increment = .ok c1 ∧ c.target = 3 ∧ c1.target = 3 ∧
      (0 ≤ c.value ∧ c.value ≤ c.target) ∧ (0 ≤ c1.value ∧ c1.value ≤ c1.target) ∧
      (Op.increment = .increment → c.value ≤ c1.value) ∧
      (c1.value < c.value → Op.increment = .reset) :=
  C2_value_bounds 3 2 (by decide) (by decide) [.increment, .increment, .reset, .increment]
    .increment

/-- C3: in the interleaving model of `Start` on `NewCounter(target, n)` with `int` arguments
target > 0 and n > 0, no schedule leads to a panic, and in every reachable state in which
all n workers have been launched and have exited (as they have once `Start` has returned)
`value == target` exactly and `IsReached()` is true; already one exited worker is enough
for that, and some schedule does make `Start` return. -/
theorem C3_start_reaches_target (t n : Int) (ht : InRange t) (hn : InRange n) (htpos : 0 < t)
    (hnpos : 0 < n) :
    (∀ sched, (∀ p, Start.run (Start.init (NewCounter t n)) sched ≠ .panic p) ∧
      ∀ s, Start.run (Start.init (NewCounter t n)) sched = .next s →
        (s.main = .returned → AllExited s) ∧
        (AllExited s → s.c.value = t ∧ GetValue s.c = t ∧ IsReached s.c = true) ∧
        (∀ w ∈ s.workers, w.pc = .exited →
          s.c.value = t ∧ GetValue s.c = t ∧ IsReached s.c = true)) ∧
    ∃ sched s, Start.run (Start.init (NewCounter t n)) sched = .next s ∧ s.main = .returned := by
  refine ⟨?_, can_return _ _ (PoolInv_start (Good_NewCounter n ht) hn) (le_refl _)⟩
  intro sched
  have hinv := run_inv (PoolInv_start (Good_NewCounter n ht) hn) sched
  constructor
  · intro p hp
    rcases hinv with hd | ⟨s1, h1, -⟩
    · rw [hd] at hp
      cases hp
    · rw [h1] at hp
      cases hp
  · intro s hs
    rcases hinv with hd | ⟨s1, h1, h2, -, -⟩
    · rw [hd] at hs
      cases hs
    · have hs1 : s1 = s := by
        rw [h1] at hs
        cases hs
        rfl
      subst hs1
      have hnum : s1.c.numGoroutines = n := h2.num_eq
      have htar : s1.c.target = t := h2.target_eq
      have hone : ∀ w ∈ s1.workers, w.pc = .exited →
          s1.c.value = t ∧ GetValue s1.c = t ∧ IsReached s1.c = true := by
        intro w hmem hx
        have hge := h2.exited w hmem hx
        have hle := h2.good.2.2.1
        have hv : s1.c.value = t := by omega
        refine ⟨hv, hv, ?_⟩
        simp only [IsReached, ge_iff_le, decide_eq_true_eq]
        omega
      refine ⟨?_, ?_, hone⟩
      · intro hr
        constructor
        · have h3 := h2.launched (by rw [hr]; exact fun hc => by cases hc)
          have h4 := h2.i_le
          have h5 := h2.length_eq
          omega
        · apply all_exited_of_liveCount
          rw [← h2.wg_eq]
          exact h2.returned hr
      · rintro ⟨hlen, hall⟩
        have hne : s1.workers ≠ [] := by
          intro he
          rw [he, hnum] at hlen
          simp only [List.length_nil, Nat.cast_zero] at hlen
          omega
        obtain ⟨w, ws, hw⟩ := List.exists_cons_of_ne_nil hne
        have hmem : w ∈ s1.workers := by
          rw [hw]
          exact List.mem_cons_self _ _
        exact hone w hmem (hall w hmem)

/-- C3 at target = 10 and numGoroutines = 3, the configuration of `main`, along `schedule10`:
`Start` returns, all three workers have exited, `GetValue()` is 10 and `IsReached()` is true. -/
theorem C3_start_reaches_target_witness :
    Start.run (Start.init (NewCounter 10 3)) schedule10 = .next final10 ∧
      final10.main = .returned ∧ AllExited final10 ∧
      (final10.c.value = 10 ∧ GetValue final10.c = 10 ∧ IsReached final10.c = true) ∧
      main schedule10 = .next (10, true) :=
  ⟨by decide, rfl, by decide,
    ((C3_start_reaches_target 10 3 (by decide) (by decide) (by decide) (by decide)).1
      schedule10 |>.2 final10 (by decide)).2.1 (by decide),
    by decide⟩

/-- C4: for every `int` target >= 0 and every k, k successive `Increment` calls on
`NewCounter(target, n)` return normally, exactly `min(k, target)` of them change `value`,
and the final value is `min(k, target)`; and whatever the number of workers and the schedule
of `Start`, the number of steps that change `value` is the final value, at most `target`. -/
theorem C4_no_overshoot (t n : Int) (ht : InRange t) (hn : InRange n) (h0 : 0 ≤ t) (k : Nat) :
    (∃ c, applyOps (NewCounter t n) (List.replicate k .increment) = .ok c ∧
      c.value = min (k : Int) t ∧
      (countChanges (NewCounter t n) (List.replicate k .increment) : Int) = min (k : Int) t) ∧
    ∀ sched s, Start.run (Start.init (NewCounter t n)) sched = .next s →
      (Start.changes (Start.init (NewCounter t n)) sched : Int) = s.c.value ∧ s.c.value ≤ t := by
  constructor
  · obtain ⟨c, h1, -, -, -, -, h6, h7⟩ := increments_Good (Good_NewCounter n ht) k
    have hv : c.value = min (k : Int) t := by
      rw [h6]
      show min ((0 : Int) + k) (max t 0) = min (k : Int) t
      rw [max_eq_left h0, zero_add]
    refine ⟨c, h1, hv, ?_⟩
    rw [h7, hv]
    show min (k : Int) t - 0 = min (k : Int) t
    omega
  · intro sched s hs
    rcases run_inv (PoolInv_start (Good_NewCounter n ht) hn) sched with hd | ⟨s1, h1, h2, -, h4⟩
    · rw [hd] at hs
      cases hs
    · have hs1 : s1 = s := by
        rw [h1] at hs
        cases hs
        rfl
      subst hs1
      constructor
      · rw [h4]
        show s1.c.value - 0 = s1.c.value
        omega
      · have := h2.good.2.2.1
        have htar : s1.c.target = t := h2.target_eq
        omega

/-- C4 at target = 1 with 5 workers: five `Increment` calls change `value` once, and in the
run `schedule5`, in which all five workers call `Increment`, one step changes `value`. -/
theorem C4_no_overshoot_witness :
    (∃ c, applyOps (NewCounter 1 5) (List.replicate 5 .increment) = .ok c ∧
      c.value = min ((5 : Nat) : Int) 1 ∧
      (countChanges (NewCounter 1 5) (List.replicate 5 .increment) : Int) =
        min ((5 : Nat) : Int) 1) ∧
    ((Start.changes (Start.init (NewCounter 1 5)) schedule5 : Int) = final5.c.value ∧
      final5.c.value ≤ 1) ∧
    Start.changes (Start.init (NewCounter 1 5)) schedule5 = 1 :=
  ⟨(C4_no_overshoot 1 5 (by decide) (by decide) (by decide) 5).1,
    (C4_no_overshoot 1 5 (by decide) (by decide) (by decide) 5).2 schedule5 final5 (by decide),
    by decide⟩

/-- C5: for every target, positive, zero or negative, and every finite sequence of
`Increment` and `Reset` calls on `NewCounter(target, n)`, every call returns normally: the
panic of closing a closed channel is never raised, and when the done channel is closed a
further `Increment` leaves the state as it is. -/
theorem C5_double_fire_guarded (t n : Int) (ops : List Op) :
    (∀ e, applyOps (NewCounter t n) ops ≠ .error e) ∧
      ∃ c, applyOps (NewCounter t n) ops = .ok c ∧ (∃ c1, Increment c = .ok c1) ∧
        (c.done.closed = true → Increment c = .ok c) := by
  have hf : Fired (NewCounter t n) := by
    intro hc
    cases hc
  obtain ⟨c, h1, h2, -, -⟩ := applyOps_Fired hf ops
  refine ⟨?_, c, h1, ?_, ?_⟩
  · intro e he
    rw [h1] at he
    cases he
  · obtain ⟨c1, k1, -⟩ := Increment_Fired h2
    exact ⟨c1, k1⟩
  · intro hc
    exact Increment_reached (h2 hc)

/-- C5 on `NewCounter(2, 3)` after increment, increment, increment, reset, increment,
increment, increment: the signal fires twice, once per channel. -/
theorem C5_double_fire_guarded_witness :
    ∃ c, applyOps (NewCounter 2 3)
        [.increment, .increment, .increment, .reset, .increment, .increment, .increment] = .ok c ∧
      (∃ c1, Increment c = .ok c1) ∧ (c.done.closed = true → Increment c = .ok c) :=
  (C5_double_fire_guarded 2 3
    [.increment, .increment, .increment, .reset, .increment, .increment, .increment]).2

/-- C6: for every `int` target <= 0 the fresh counter is already reached: `IsReached()` is
true, no `Increment` call changes anything, and in every run of `Start` the counter stays
as `NewCounter` built it, no step changes `value`, no worker ever stands before the call of
`Increment`, the step of a worker at the `select` takes the default branch, its next step,
the `IsReached` test, is its return, and once `Start` has returned all workers have exited,
`GetValue()` is 0 and `IsReached()` is true. -/
theorem C6_nonpositive_target (t n : Int) (ht : InRange t) (hn : InRange n) (hle : t ≤ 0) :
    IsReached (NewCounter t n) = true ∧
    (∀ k : Nat, applyOps (NewCounter t n) (List.replicate k .increment) = .ok (NewCounter t n) ∧
      countChanges (NewCounter t n) (List.replicate k .increment) = 0) ∧
    ∀ sched, (∀ p, Start.run (Start.init (NewCounter t n)) sched ≠ .panic p) ∧
      ∀ s, Start.run (Start.init (NewCounter t n)) sched = .next s →
        s.c = NewCounter t n ∧ Start.changes (Start.init (NewCounter t n)) sched = 0 ∧
        (∀ k w, s.workers.get? k = some w →
          w.pc ≠ .atIncrement ∧
          (w.pc = .atSelect → Start.step s (.worker k) =
            .next { s with workers := s.workers.set k { w with pc := .atIsReached } }) ∧
          (w.pc = .atIsReached → Start.step s (.worker k) =
            .next { s with wg := s.wg - 1,
                           workers := s.workers.set k { w with pc := .exited } })) ∧
        (s.main = .returned → AllExited s ∧ GetValue s.c = 0 ∧ IsReached s.c = true) := by
  have hg0 : Good (NewCounter t n) := Good_NewCounter n ht
  have hfix : ∀ c : Counter, Good c → c.target = t → c.numGoroutines = n → c.done.id = 0 →
      c = NewCounter t n := by
    intro c hg h1 h2 h3
    rw [hg.eq_of_nonpos (by omega), h1, h2, h3]
    rfl
  refine ⟨?_, ?_, ?_⟩
  · simp only [IsReached, NewCounter, ge_iff_le, decide_eq_true_eq]
    exact hle
  · intro k
    obtain ⟨c, h1, h2, h3, h4, h5, h6, h7⟩ := increments_Good hg0 k
    have hc : c = NewCounter t n := hfix c h2 h3 h4 h5
    rw [hc] at h1 h7
    refine ⟨h1, ?_⟩
    have h8 : (countChanges (NewCounter t n) (List.replicate k .increment) : Int) = 0 := by
      rw [h7]
      omega
    exact_mod_cast h8
  · intro sched
    have hinv := run_inv (PoolInv_start hg0 hn) sched
    constructor
    · intro p hp
      rcases hinv with hd | ⟨s1, h1, -⟩
      · rw [hd] at hp
        cases hp
      · rw [h1] at hp
        cases hp
    · intro s hs
      rcases hinv with hd | ⟨s1, h1, h2, -, h4⟩
      · rw [hd] at hs
        cases hs
      · have hs1 : s1 = s := by
          rw [h1] at hs
          cases hs
          rfl
        subst hs1
        have hc : s1.c = NewCounter t n := hfix s1.c h2.good h2.target_eq h2.num_eq h2.chan_eq
        have htar : s1.c.target = t := h2.target_eq
        refine ⟨hc, ?_, ?_, ?_⟩
        · have h8 : (Start.changes (Start.init (NewCounter t n)) sched : Int) = 0 := by
            rw [h4, hc]
            show (0 : Int) - 0 = 0
            omega
          exact_mod_cast h8
        · intro k w hget
          have hcl : s1.c.done.closed = false := by rw [hc]; rfl
          have hR : IsReached s1.c = true := by
            simp only [IsReached, ge_iff_le, decide_eq_true_eq]
            have := h2.good.2.1
            omega
          refine ⟨?_, ?_, ?_⟩
          · intro hpc
            have := h2.incrementing w (mem_of_get? hget) hpc
            omega
          · intro hpc
            simp only [Start.step, hget, hpc, hcl, Bool.false_eq_true, ↓reduceIte]
          · intro hpc
            have hw : w.pc ≠ .exited := by rw [hpc]; exact fun hx => by cases hx
            have hwg : ¬ s1.wg - 1 < 0 := by
              have := (h2.exit hget hw (by have := h2.good.2.1; omega)).1
              omega
            simp only [Start.step, hget, hpc, hR, ↓reduceIte, Start.workerExit, wgDone, if_neg hwg]
        · intro hr
          refine ⟨⟨?_, ?_⟩, ?_, ?_⟩
          · have h3 := h2.launched (by rw [hr]; exact fun hx => by cases hx)
            have h5 := h2.i_le
            have h6 := h2.length_eq
            omega
          · apply all_exited_of_liveCount
            rw [← h2.wg_eq]
            exact h2.returned hr
          · rw [hc]
            rfl
          · simp only [IsReached, ge_iff_le, decide_eq_true_eq]
            have := h2.good.2.1
            omega

/-- C6 at target = 0 with two workers: `IsReached()` holds on the fresh counter, and along a
schedule in which worker 0 starts while `Start` is still launching `Start` returns with all
workers exited, `GetValue()` 0 and `IsReached()` true. -/
theorem C6_nonpositive_target_witness :
    IsReached (NewCounter 0 2) = true ∧
    Start.run (Start.init (NewCounter 0 2))
        [.main, .worker 0, .main, .main, .worker 1, .worker 0, .worker 1, .main] =
      .next { c := NewCounter 0 2, wg := 0, i := 2, main := .returned,
              workers := [⟨0, .exited⟩, ⟨1, .exited⟩] } ∧
    (AllExited { c := NewCounter 0 2, wg := 0, i := 2, main := .returned,
                 workers := [⟨0, .exited⟩, ⟨1, .exited⟩] } ∧
      GetValue (NewCounter 0 2) = 0 ∧ IsReached (NewCounter 0 2) = true) :=
  ⟨(C6_nonpositive_target 0 2 (by decide) (by decide) (by decide)).1, by decide,
    ((C6_nonpositive_target 0 2 (by decide) (by decide) (by decide)).2.2
      [.main, .worker 0, .main, .main, .worker 1, .worker 0, .worker 1, .main]).2
      { c := NewCounter 0 2, wg := 0, i := 2, main := .returned,
        workers := [⟨0, .exited⟩, ⟨1, .exited⟩] } (by decide) |>.2.2.2 rfl⟩

/-- C7: `Reset`, on any counter state, sets `value` to 0, installs an open done channel that
is not the one it replaces, and keeps `target` and `numGoroutines`; for every state `s`
reached from `NewCounter(target, n)` by `Increment` and `Reset` calls, `Reset(s)` is the
fresh state up to the identity of the done channel, `Reset` is idempotent up to that
identity, a run of `Start` after `Reset` goes, schedule by schedule, through the states of a
run on the fresh counter up to that identity, and for `int` arguments target > 0 and n > 0
it never panics and has `value == target` once `Start` has returned; the counter a first
run of `Start` ends in is such a state `s`. The run after `Reset` does return: for `int`
arguments every run has at most `6 * max(n, 0) + 3 * max(target, 0) + 2` steps, a run on
which `Start` has not returned can be continued by one more step, some schedule makes
`Start` return, and for target > 0 and n > 0 it returns with `value == target` and
`IsReached()` true. -/
theorem C7_reset (t n : Int) :
    (∀ c : Counter, (Reset c).value = 0 ∧ (Reset c).done.closed = false ∧
      (Reset c).done.id ≠ c.done.id ∧ (Reset c).target = c.target ∧
      (Reset c).numGoroutines = c.numGoroutines) ∧
    (∀ sched s0, Start.run (Start.init (NewCounter t n)) sched = .next s0 →
      ∃ k, applyOps (NewCounter t n) (List.replicate k .increment) = .ok s0.c) ∧
    ∀ ops s, applyOps (NewCounter t n) ops = .ok s →
      SameUpToChan (Reset s) (NewCounter t n) ∧
      SameUpToChan (Reset (Reset s)) (Reset s) ∧
      (∀ sched, (Start.run (Start.init (Reset s)) sched).map Pool.eraseChanId =
        (Start.run (Start.init (NewCounter t n)) sched).map Pool.eraseChanId) ∧
      (InRange t → InRange n → 0 < t → 0 < n →
        ∀ sched, (∀ p, Start.run (Start.init (Reset s)) sched ≠ .panic p) ∧
          ∀ s1, Start.run (Start.init (Reset s)) sched = .next s1 → s1.main = .returned →
            s1.c.value = t ∧ IsReached s1.c = true) ∧
      (InRange t → InRange n →
        (∃ sched s1, Start.run (Start.init (Reset s)) sched = .next s1 ∧ s1.main = .returned) ∧
        ∀ sched s1, Start.run (Start.init (Reset s)) sched = .next s1 →
          sched.length ≤ 6 * (max n 0).toNat + 3 * (max t 0).toNat + 2 ∧
          (s1.main ≠ .returned →
            ∃ l s2, Start.run (Start.init (Reset s)) (sched ++ [l]) = .next s2)) ∧
      (InRange t → InRange n → 0 < t → 0 < n →
        ∃ sched s1, Start.run (Start.init (Reset s)) sched = .next s1 ∧ s1.main = .returned ∧
          s1.c.value = t ∧ GetValue s1.c = t ∧ IsReached s1.c = true) := by
  refine ⟨?_, ?_, ?_⟩
  · intro c
    refine ⟨rfl, rfl, ?_, rfl, rfl⟩
    show c.done.id + 1 ≠ c.done.id
    omega
  · intro sched s0 h0
    exact run_counter h0
  · intro ops s hs
    have hf : Fired (NewCounter t n) := by
      intro hc
      cases hc
    obtain ⟨c, h1, -, h3, h4⟩ := applyOps_Fired hf ops
    have hcs : c = s := by
      rw [h1] at hs
      cases hs
      rfl
    subst hcs
    have ht : c.target = t := h3
    have hn : c.numGoroutines = n := h4
    have hsame : SameUpToChan (Reset c) (NewCounter t n) := ⟨rfl, ht, hn, rfl⟩
    -- The invariant of `Start` holds at the call after `Reset`.
    have hstart : InRange t → InRange n → PoolInv (Reset c) (Start.init (Reset c)) := by
      intro hti hni
      obtain ⟨c2, k1, k2, -, -⟩ := applyOps_Good (Good_NewCounter n hti) ops
      have hc2 : c2 = c := by
        rw [h1] at k1
        cases k1
        rfl
      subst hc2
      exact PoolInv_start (Good_Reset k2)
        (by show InRange c2.numGoroutines; rw [hn]; exact hni)
    -- Once `Start` has returned after `Reset`, the target is reached.
    have hterm : InRange t → InRange n → 0 < t → 0 < n →
        ∀ sched s1, Start.run (Start.init (Reset c)) sched = .next s1 → s1.main = .returned →
          s1.c.value = t ∧ IsReached s1.c = true := by
      intro hti hni htpos hnpos sched s1 hs1 hr
      rcases run_inv (hstart hti hni) sched with hd | ⟨s2, e1, e2, -, -⟩
      · rw [hd] at hs1
        cases hs1
      · have hs2 : s2 = s1 := by
          rw [e1] at hs1
          cases hs1
          rfl
        subst hs2
        have htar : s2.c.target = t := e2.target_eq.trans ht
        have hnum : s2.c.numGoroutines = n := e2.num_eq.trans hn
        have h5 := e2.launched (by rw [hr]; exact fun hx => by cases hx)
        have h6 := e2.length_eq
        have hne : s2.workers ≠ [] := by
          intro he
          rw [he] at h6
          simp only [List.length_nil, Nat.cast_zero] at h6
          omega
        obtain ⟨w, ws, hw⟩ := List.exists_cons_of_ne_nil hne
        have hmem : w ∈ s2.workers := by
          rw [hw]
          exact List.mem_cons_self _ _
        have hall := all_exited_of_liveCount (by rw [← e2.wg_eq]; exact e2.returned hr)
        have hge := e2.exited w hmem (hall w hmem)
        have hle := e2.good.2.2.1
        refine ⟨by omega, ?_⟩
        simp only [IsReached, ge_iff_le, decide_eq_true_eq]
        exact hge
    refine ⟨hsame, ⟨rfl, rfl, rfl, rfl⟩, ?_, ?_, ?_, ?_⟩
    · intro sched
      have he : Pool.eraseChanId (Start.init (Reset c)) =
          Pool.eraseChanId (Start.init (NewCounter t n)) := by
        simp only [Pool.eraseChanId, Start.init, eraseChanId, Reset, NewCounter, makeChan, ht, hn]
      rw [← run_erase, ← run_erase, he]
    · intro hti hni htpos hnpos sched
      constructor
      · intro p hp
        rcases run_inv (hstart hti hni) sched with hd | ⟨s1, e1, -⟩
        · rw [hd] at hp
          cases hp
        · rw [e1] at hp
          cases hp
      · exact hterm hti hni htpos hnpos sched
    · intro hti hni
      have hinv := hstart hti hni
      have hpot : potential (Start.init (Reset c)) =
          6 * (max n 0).toNat + 3 * (max t 0).toNat + 2 := by
        show 6 * (c.numGoroutines - 0).toNat + 2 + 3 * (c.target - 0).toNat + 0 = _
        rw [ht, hn]
        omega
      refine ⟨can_return _ _ hinv (le_refl _), ?_⟩
      intro sched s1 hs1
      constructor
      · have := run_length hinv hs1
        omega
      · intro hm
        rcases run_inv hinv sched with hd | ⟨s2, e1, e2, -, -⟩
        · rw [hd] at hs1
          cases hs1
        · have e : s2 = s1 := by
            rw [e1] at hs1
            cases hs1
            rfl
          subst e
          obtain ⟨l, s3, h5⟩ := step_progress e2 hm
          refine ⟨l, s3, ?_⟩
          rw [run_append, e1]
          simp only [Start.run, h5]
    · intro hti hni htpos hnpos
      obtain ⟨sched, s1, r1, r2⟩ := can_return _ _ (hstart hti hni) (le_refl _)
      obtain ⟨v1, v2⟩ := hterm hti hni htpos hnpos sched s1 r1 r2
      exact ⟨sched, s1, r1, r2, v1, v1, v2⟩

/-- C7 on the state `final10.c` that the run of `NewCounter(10, 3)` along `schedule10` ends
in: it is reached by ten increments, and after `Reset` the run along `schedule10` returns in
`second10`, with `value == 10` again. -/
theorem C7_reset_witness :
    Start.run (Start.init (NewCounter 10 3)) schedule10 = .next final10 ∧
    (∃ k, applyOps (NewCounter 10 3) (List.replicate k .increment) = .ok final10.c) ∧
    SameUpToChan (Reset final10.c) (NewCounter 10 3) ∧
    Start.run (Start.init (Reset final10.c)) schedule10 = .next second10 ∧
    second10.main = .returned ∧
    (second10.c.value = 10 ∧ IsReached second10.c = true) ∧
    (schedule10.length ≤ 6 * (max (3 : Int) 0).toNat + 3 * (max (10 : Int) 0).toNat + 2 ∧
      (second10.main ≠ .returned →
        ∃ l s2, Start.run (Start.init (Reset final10.c)) (schedule10 ++ [l]) = .next s2)) ∧
    (∃ sched s1, Start.run (Start.init (Reset final10.c)) sched = .next s1 ∧
      s1.main = .returned ∧ s1.c.value = 10 ∧ GetValue s1.c = 10 ∧ IsReached s1.c = true) :=
  ⟨by decide,
    (C7_reset 10 3).2.1 schedule10 final10 (by decide),
    ((C7_reset 10 3).2.2 (List.replicate 10 .increment) final10.c rfl).1,
    by decide,
    rfl,
    (((C7_reset 10 3).2.2 (List.replicate 10 .increment) final10.c rfl).2.2.2.1
      (by decide) (by decide) (by decide) (by decide) schedule10).2 second10 (by decide) rfl,
    (((C7_reset 10 3).2.2 (List.replicate 10 .increment) final10.c rfl).2.2.2.2.1
      (by decide) (by decide)).2 schedule10 second10 (by decide),
    ((C7_reset 10 3).2.2 (List.replicate 10 .increment) final10.c rfl).2.2.2.2.2
      (by decide) (by decide) (by decide) (by decide)⟩

/-- C8: `Start` on a counter with `int` fields launches exactly `max(numGoroutines, 0)`
workers with ids 0, 1, ..., numGoroutines - 1: at every reachable state the workers launched
so far carry the ids 0, 1, ... in launch order and are at most that many, once the launch
loop is left they are exactly that many, and the loop run on its own launches them all; for
numGoroutines <= 0 the first step of `Start` already leaves the loop, no worker is ever
launched, the counter is never touched, and `Start` returns at its second step with the
counter unchanged. -/
theorem C8_launch_count (c0 : Counter) (hg : Good c0) (hn : InRange c0.numGoroutines) :
    (∀ sched s, Start.run (Start.init c0) sched = .next s →
      s.workers.map Worker.goroutineID = (List.range s.workers.length).map Int.ofNat ∧
      (s.workers.length : Int) ≤ max c0.numGoroutines 0 ∧
      (s.main ≠ .launching → (s.workers.length : Int) = max c0.numGoroutines 0) ∧
      (c0.numGoroutines ≤ 0 → s.workers = [] ∧ s.c = c0)) ∧
    Start.run (Start.init c0) (List.replicate ((max c0.numGoroutines 0).toNat + 1) .main) =
      .next { c := c0, wg := max c0.numGoroutines 0, i := max c0.numGoroutines 0,
              main := .waiting, workers := launchedWorkers (max c0.numGoroutines 0).toNat } ∧
    (c0.numGoroutines ≤ 0 →
      Start.step (Start.init c0) .main = .next { Start.init c0 with main := .waiting } ∧
      Start.run (Start.init c0) [.main, .main] = .next { Start.init c0 with main := .returned }) := by
  refine ⟨?_, ?_, ?_⟩
  · intro sched s hs
    rcases run_inv (PoolInv_start hg hn) sched with hd | ⟨s1, h1, h2, -, -⟩
    · rw [hd] at hs
      cases hs
    · have hs1 : s1 = s := by
        rw [h1] at hs
        cases hs
        rfl
      subst hs1
      have hnum : s1.c.numGoroutines = c0.numGoroutines := h2.num_eq
      have h3 := h2.i_le
      have h4 := h2.length_eq
      have h5 := h2.i_nonneg
      refine ⟨h2.ids, by omega, ?_, ?_⟩
      · intro hm
        have := h2.launched hm
        omega
      · intro hle
        have hnil : s1.workers = [] := by
          apply List.eq_nil_of_length_eq_zero
          omega
        exact ⟨hnil, h2.untouched hnil⟩
  · have hN : (((max c0.numGoroutines 0).toNat : Nat) : Int) = max c0.numGoroutines 0 := by
      omega
    have hrun := launch_run c0 hn (max c0.numGoroutines 0).toNat 0 (by push_cast; omega)
    rw [List.replicate_succ', run_append]
    have hstart : Start.init c0 =
        { c := c0, wg := ((0 : Nat) : Int), i := ((0 : Nat) : Int), main := .launching,
          workers := launchedWorkers 0 } := rfl
    rw [hstart, hrun]
    have hge : ¬ (((0 + (max c0.numGoroutines 0).toNat : Nat) : Int) < c0.numGoroutines) := by
      push_cast
      omega
    have hge2 : ¬ (max c0.numGoroutines 0 < c0.numGoroutines) := by omega
    simp only [Start.run, Start.step, if_neg hge, Nat.zero_add, hN, if_neg hge2]
  · intro hle
    have hge : ¬ (Start.init c0).i < (Start.init c0).c.numGoroutines := by
      show ¬ (0 : Int) < c0.numGoroutines
      omega
    constructor
    · simp only [Start.step, Start.init, if_neg hge]
      have : ¬ (0 : Int) < c0.numGoroutines := by omega
      simp only [if_neg this]
    · have : ¬ (0 : Int) < c0.numGoroutines := by omega
      simp only [Start.run, Start.step, Start.init, if_neg this, ↓reduceIte]

/-- C8 at `NewCounter(10, 3)` along `schedule10` and at `NewCounter(10, -2)`. -/
theorem C8_launch_count_witness :
    (final10.workers.map Worker.goroutineID = (List.range final10.workers.length).map Int.ofNat ∧
      (final10.workers.length : Int) ≤ max (NewCounter 10 3).numGoroutines 0 ∧
      (final10.main ≠ .launching →
        (final10.workers.length : Int) = max (NewCounter 10 3).numGoroutines 0) ∧
      ((NewCounter 10 3).numGoroutines ≤ 0 → final10.workers = [] ∧ final10.c = NewCounter 10 3)) ∧
    (Start.step (Start.init (NewCounter 10 (-2))) .main =
        .next { Start.init (NewCounter 10 (-2)) with main := .waiting } ∧
      Start.run (Start.init (NewCounter 10 (-2))) [.main, .main] =
        .next { Start.init (NewCounter 10 (-2)) with main := .returned }) :=
  ⟨(C8_launch_count (NewCounter 10 3) (Good_NewCounter 3 (by decide)) (by decide)).1
      schedule10 final10 (by decide),
    (C8_launch_count (NewCounter 10 (-2)) (Good_NewCounter (-2) (by decide)) (by decide)).2.2
      (by decide)⟩

/-- C9: the worker loop run alone on `NewCounter(target, 1)` terminates for every `int`
target: with the fuel `target - value + 1` of its variant, and with any fuel above
`max(target, 0)`, it returns after exactly `max(target, 0)` calls of `Increment` the counter
with `value = max(target, 0)`, which is `target` whenever `target >= 0`; with less fuel it
has not finished, so it makes exactly `max(target, 0) + 1` iterations. -/
theorem C9_worker_loop_terminates (t : Int) (ht : InRange t) :
    runWorker (NewCounter t 1) =
      some (.ok ({ value := max t 0, target := t, numGoroutines := 1,
                   done := { id := 0, closed := decide (0 < t) } }, (max t 0).toNat)) ∧
    (∀ fuel, (max t 0).toNat < fuel →
      workerLoop fuel (NewCounter t 1) 0 = runWorker (NewCounter t 1)) ∧
    (∀ fuel, fuel ≤ (max t 0).toNat → workerLoop fuel (NewCounter t 1) 0 = none) ∧
    (0 ≤ t → ∃ c calls, runWorker (NewCounter t 1) = some (.ok (c, calls)) ∧
      c.value = t ∧ GetValue c = t ∧ IsReached c = true ∧ (calls : Int) = t) := by
  have hg : Good (NewCounter t 1) := Good_NewCounter 1 ht
  have hloop : ∀ fuel, (max t 0).toNat < fuel →
      workerLoop fuel (NewCounter t 1) 0 =
        some (.ok ({ value := max t 0, target := t, numGoroutines := 1,
                     done := { id := 0, closed := decide (0 < t) } }, (max t 0).toNat)) := by
    intro fuel hf
    have hf2 : ((NewCounter t 1).target - (NewCounter t 1).value).toNat < fuel := by
      show (t - 0).toNat < fuel
      omega
    rw [workerLoop_Good hg fuel 0 hf2]
    show some (Except.ok (_, 0 + (max t 0 - 0).toNat)) = _
    simp only [Nat.zero_add, sub_zero]
    rfl
  have hrun : runWorker (NewCounter t 1) =
      some (.ok ({ value := max t 0, target := t, numGoroutines := 1,
                   done := { id := 0, closed := decide (0 < t) } }, (max t 0).toNat)) := by
    apply hloop
    show (max t 0).toNat < (t - 0).toNat + 1
    omega
  refine ⟨hrun, ?_, ?_, ?_⟩
  · intro fuel hf
    rw [hrun]
    exact hloop fuel hf
  · intro fuel hf
    apply workerLoop_none hg
    show (fuel : Int) ≤ max t 0 - 0
    omega
  · intro h0
    refine ⟨_, _, hrun, ?_, ?_, ?_, ?_⟩
    · show max t 0 = t
      omega
    · show max t 0 = t
      omega
    · simp only [IsReached, ge_iff_le, decide_eq_true_eq]
      omega
    · omega

/-- C9 at target = 3: three calls of `Increment`, final value 3, the counter that `Start`
with its one worker returns with. -/
theorem C9_worker_loop_terminates_witness :
    runWorker (NewCounter 3 1) =
      some (.ok ({ value := 3, target := 3, numGoroutines := 1,
                   done := { id := 0, closed := true } }, 3)) ∧
    (∃ c calls, runWorker (NewCounter 3 1) = some (.ok (c, calls)) ∧
      c.value = 3 ∧ GetValue c = 3 ∧ IsReached c = true ∧ (calls : Int) = 3) ∧
    Start.run (Start.init (NewCounter 3 1))
        ([.main, .main] ++ List.replicate 10 (.worker 0) ++ [.main]) =
      .next { c := { value := 3, target := 3, numGoroutines := 1,
                     done := { id := 0, closed := true } },
              wg := 0, i := 1, main := .returned, workers := [⟨0, .exited⟩] } :=
  ⟨rfl, (C9_worker_loop_terminates 3 (by decide)).2.2.2 (by decide), by decide⟩

/-- C10: for every `int` target > 0, in every state reached from `NewCounter(target, n)` by
`Increment` and `Reset` calls the done signal is fired exactly when `value >= target`, which
is the same as `value == target` and as `IsReached()` being true; and in a session of
`Increment` calls only, the signal stays the channel `NewCounter` made, is fired after k
calls exactly when `k >= target`, so it goes from pending to fired at the call number
`target` and at no other, the call that makes `value` equal to `target`, and stays fired. -/
theorem C10_exit_conditions_agree (t n : Int) (ht : InRange t) (hpos : 0 < t) :
    (∀ ops, ∃ c, applyOps (NewCounter t n) ops = .ok c ∧
      (c.done.closed = true ↔ c.value ≥ c.target) ∧
      (c.value ≥ c.target ↔ c.value = c.target) ∧
      (IsReached c = true ↔ c.done.closed = true)) ∧
    ∀ k : Nat, ∃ c c1, applyOps (NewCounter t n) (List.replicate k .increment) = .ok c ∧
      Increment c = .ok c1 ∧
      applyOps (NewCounter t n) (List.replicate (k + 1) .increment) = .ok c1 ∧
      c.done.id = (NewCounter t n).done.id ∧ c1.done.id = (NewCounter t n).done.id ∧
      (c.done.closed = true ↔ t ≤ k) ∧
      ((c.done.closed = false ∧ c1.done.closed = true) ↔ (k : Int) + 1 = t) ∧
      ((k : Int) + 1 = t → c.value + 1 = c1.value ∧ c1.value = c1.target) ∧
      (c.done.closed = true → c1.done.closed = true) := by
  have hg0 : Good (NewCounter t n) := Good_NewCounter n ht
  constructor
  · intro ops
    obtain ⟨c, h1, h2, h3, -⟩ := applyOps_Good hg0 ops
    have h3t : c.target = t := h3
    obtain ⟨-, h0, hle, hcl⟩ := h2
    refine ⟨c, h1, ?_, ?_, ?_⟩
    · rw [hcl]
      constructor
      · intro h; exact h.2
      · intro h; exact ⟨by omega, h⟩
    · constructor
      · intro h; omega
      · intro h; omega
    · simp only [IsReached, ge_iff_le, decide_eq_true_eq]
      rw [hcl]
      constructor
      · intro h; exact ⟨by omega, h⟩
      · intro h; exact h.2
  · intro k
    obtain ⟨c, h1, h2, h3, -, h5, h6, -⟩ := increments_Good hg0 k
    obtain ⟨c1, k1, k2, k3, -, k5, k6⟩ := Increment_Good h2
    have h3t : c.target = t := h3
    have hv : c.value = min (k : Int) t := by
      rw [h6]
      show min ((0 : Int) + k) (max t 0) = min (k : Int) t
      rw [max_eq_left (by omega), zero_add]
    have hc := h2.2.2.2
    have hc1 := k2.2.2.2
    rw [k3, h3t] at hc1
    rw [h3t] at hc k6
    have hv1 : c1.value = min ((k : Int) + 1) t := by
      rw [k6, hv]
      split_ifs <;> omega
    refine ⟨c, c1, h1, k1, ?_, h5, k5.trans h5, ?_, ?_, ?_, ?_⟩
    · rw [List.replicate_succ', applyOps_append, h1]
      simp only [applyOps, applyOp, k1]
    · rw [hc, hv]
      omega
    · have e : c.done.closed = false ↔ ¬ (c.done.closed = true) := by
        cases c.done.closed <;> simp
      rw [e, hc, hc1, hv, hv1]
      omega
    · intro hk
      rw [k3, h3t, hv1, hv]
      omega
    · rw [hc, hc1, hv, hv1]
      omega

/-- C10 at target = 2: the signal is pending after one call and fired by the second. -/
theorem C10_exit_conditions_agree_witness :
    ∃ c c1, applyOps (NewCounter 2 3) (List.replicate 1 .increment) = .ok c ∧
      Increment c = .ok c1 ∧
      applyOps (NewCounter 2 3) (List.replicate (1 + 1) .increment) = .ok c1 ∧
      c.done.id = (NewCounter 2 3).done.id ∧ c1.done.id = (NewCounter 2 3).done.id ∧
      (c.done.closed = true ↔ (2 : Int) ≤ (1 : Nat)) ∧
      ((c.done.closed = false ∧ c1.done.closed = true) ↔ ((1 : Nat) : Int) + 1 = 2) ∧
      (((1 : Nat) : Int) + 1 = 2 → c.value + 1 = c1.value ∧ c1.value = c1.target) ∧
      (c.done.closed = true → c1.done.closed = true) :=
  (C10_exit_conditions_agree 2 3 (by decide) (by decide)).2 1

end Chan4
